import Mathlib

/-!
Shallow embedding of the LaTeX reference formatter (`main.py` / `process_bib.py`):
bibliography entries as field maps with distinguished `ID` and `ENTRYTYPE`
attributes, citation-key extraction, title/author normalization, required-field
validation, venue-discrepancy detection, used/unused partitioning and sorting.
Strings are modelled as Lean `String`s, with Python's ASCII case maps,
whitespace set and regular-expression scanning translated explicitly.
-/

namespace BibRef

/-- ASCII uppercase map: how Python's `str.upper`/`capitalize` acts on an ASCII letter. -/
def pyUpper (c : Char) : Char :=
  match c with
  | 'a' => 'A' | 'b' => 'B' | 'c' => 'C' | 'd' => 'D' | 'e' => 'E' | 'f' => 'F'
  | 'g' => 'G' | 'h' => 'H' | 'i' => 'I' | 'j' => 'J' | 'k' => 'K' | 'l' => 'L'
  | 'm' => 'M' | 'n' => 'N' | 'o' => 'O' | 'p' => 'P' | 'q' => 'Q' | 'r' => 'R'
  | 's' => 'S' | 't' => 'T' | 'u' => 'U' | 'v' => 'V' | 'w' => 'W' | 'x' => 'X'
  | 'y' => 'Y' | 'z' => 'Z'
  | other => other

/-- ASCII lowercase map: how Python's `str.lower` acts on an ASCII letter. -/
def pyLower (c : Char) : Char :=
  match c with
  | 'A' => 'a' | 'B' => 'b' | 'C' => 'c' | 'D' => 'd' | 'E' => 'e' | 'F' => 'f'
  | 'G' => 'g' | 'H' => 'h' | 'I' => 'i' | 'J' => 'j' | 'K' => 'k' | 'L' => 'l'
  | 'M' => 'm' | 'N' => 'n' | 'O' => 'o' | 'P' => 'p' | 'Q' => 'q' | 'R' => 'r'
  | 'S' => 's' | 'T' => 't' | 'U' => 'u' | 'V' => 'v' | 'W' => 'w' | 'X' => 'x'
  | 'Y' => 'y' | 'Z' => 'z'
  | other => other

/-- Lowercase ASCII letter test (`[a-z]`). -/
def pyIsLower (c : Char) : Bool :=
  match c with
  | 'a' | 'b' | 'c' | 'd' | 'e' | 'f' | 'g' | 'h' | 'i' | 'j' | 'k' | 'l' | 'm'
  | 'n' | 'o' | 'p' | 'q' | 'r' | 's' | 't' | 'u' | 'v' | 'w' | 'x' | 'y' | 'z' => true
  | _ => false

/-- Uppercase ASCII letter test (`[A-Z]`). -/
def pyIsUpper (c : Char) : Bool :=
  match c with
  | 'A' | 'B' | 'C' | 'D' | 'E' | 'F' | 'G' | 'H' | 'I' | 'J' | 'K' | 'L' | 'M'
  | 'N' | 'O' | 'P' | 'Q' | 'R' | 'S' | 'T' | 'U' | 'V' | 'W' | 'X' | 'Y' | 'Z' => true
  | _ => false

/-- ASCII letter test, the regex class `[a-zA-Z]`. -/
def pyIsAlpha (c : Char) : Bool :=
  pyIsLower c || pyIsUpper c

/-- Python's whitespace set for `str.strip`, `str.split` and the regex class `\s`. -/
def pyWs (c : Char) : Bool :=
  c == ' ' || c == '\t' || c == '\n' || c == '\r' || c == '\x0b' || c == '\x0c'

/-- `str.lower` over a character list. -/
def lowerWord (w : List Char) : List Char :=
  w.map pyLower

/-- `str.lower` over a `String`. -/
def pyLowerStr (s : String) : String :=
  String.mk (lowerWord s.data)

/-- Python `str.capitalize`: first character uppercased, the rest lowercased. -/
def capitalizePy (w : List Char) : List Char :=
  match w with
  | [] => []
  | c :: cs => pyUpper c :: cs.map pyLower

/-- Python `str.isupper`: at least one cased character and no lowercase cased character
(cased = ASCII letter in this embedding). -/
def isUpperWord (w : List Char) : Bool :=
  w.any pyIsAlpha && !(w.any pyIsLower)

/-- Python `str.strip`: drop whitespace from both ends. -/
def trimPy (cs : List Char) : List Char :=
  (((cs.dropWhile pyWs).reverse).dropWhile pyWs).reverse

/-- Join a list of character-list tokens with single spaces: Python `' '.join`. -/
def joinSp : List (List Char) → List Char
  | [] => []
  | [t] => t
  | t :: ts => t ++ ' ' :: joinSp ts

/-- Join with the literal separator `" and "`: Python `' and '.join`. -/
def joinAnd : List (List Char) → List Char
  | [] => []
  | [t] => t
  | t :: ts => t ++ ' ' :: 'a' :: 'n' :: 'd' :: ' ' :: joinAnd ts

/-- A bibliography entry as produced by the parsing library: the distinguished
`ID` (citation key) and `ENTRYTYPE` attributes plus the remaining field/value
pairs in insertion order. -/
structure Entry where
  ID : String
  ENTRYTYPE : String
  fields : List (String × String)
deriving DecidableEq

/-- Membership test of a name among the entry's dictionary keys: in the Python
dictionary, `ID` and `ENTRYTYPE` are keys alongside the ordinary fields. -/
def hasKey (e : Entry) (f : String) : Bool :=
  f == "ID" || f == "ENTRYTYPE" || e.fields.any (fun p => p.1 == f)

/-- Membership test among the ordinary fields (`'booktitle' in entry` style checks
on names that are never `ID`/`ENTRYTYPE`). -/
def hasField (e : Entry) (f : String) : Bool :=
  e.fields.any (fun p => p.1 == f)

/-- `entry.get(f, d)`: first stored value of field `f`, else default `d`. -/
def getField (e : Entry) (f d : String) : String :=
  match e.fields.find? (fun p => p.1 == f) with
  | some p => p.2
  | none => d

/-- `separate_entries` from the source: walk the entry list once, appending each
entry to the used list when its `ID` is in the citation-key set, else to the
unused list. -/
def separate_entries : List Entry → Finset String → List Entry × List Entry
  | [], _ => ([], [])
  | e :: es, keys =>
    let r := separate_entries es keys
    if e.ID ∈ keys then (e :: r.1, r.2) else (r.1, e :: r.2)

/-- The merging loop of `read_bib_files`: entries are added to a key-indexed
mapping; an entry whose `ID` was already seen is dropped (and reported), the
rest are kept in first-seen order.  Returns (kept entries, dropped duplicates). -/
def loadLoop : List Entry → List String → List Entry × List Entry
  | [], _ => ([], [])
  | e :: es, seen =>
    if e.ID ∈ seen then
      let r := loadLoop es seen
      (r.1, e :: r.2)
    else
      let r := loadLoop es (e.ID :: seen)
      (e :: r.1, r.2)

/-- `read_bib_files` over the already-parsed contents of each database file, in
traversal order.  Result: merged entries in first-seen order, plus the list of
reported-and-discarded duplicates. -/
def read_bib_files (files : List (List Entry)) : List Entry × List Entry :=
  loadLoop files.flatten []

/-- One attempt of the citation regex `\\cite[a-zA-Z]*\*?{([^}]+)}` at the head of
the character list.  On success returns the capture group (the brace contents)
and the remaining input after the match. -/
def matchCiteAt (cs : List Char) : Option (List Char × List Char) :=
  match cs with
  | '\\' :: 'c' :: 'i' :: 't' :: 'e' :: rest =>
    let r1 := rest.dropWhile pyIsAlpha
    let r2 := match r1 with
      | '*' :: t => t
      | _ => r1
    match r2 with
    | '{' :: r3 =>
      let body := r3.takeWhile (fun c => c != '}')
      if body.isEmpty then none
      else
        match r3.dropWhile (fun c => c != '}') with
        | '}' :: r4 => some (body, r4)
        | _ => none
    | _ => none
  | _ => none

/-- `re.findall` scan for the citation pattern: try a match at every position,
left to right, non-overlapping; collect the capture groups. -/
def findCitesF : Nat → List Char → List (List Char)
  | 0, _ => []
  | _ + 1, [] => []
  | fuel + 1, c :: cs =>
    match matchCiteAt (c :: cs) with
    | some (cap, rest) => cap :: findCitesF fuel rest
    | none => findCitesF fuel cs

/-- All capture groups of the citation pattern in one document text. -/
def findCites (s : List Char) : List (List Char) :=
  findCitesF s.length s

/-- Python `str.split(',')`: split at every comma, keeping empty pieces. -/
def splitOnComma : List Char → List (List Char)
  | [] => [[]]
  | ',' :: cs => [] :: splitOnComma cs
  | c :: cs =>
    match splitOnComma cs with
    | s :: ss => (c :: s) :: ss
    | [] => [[c]]

/-- The keys contributed by one citation-marker match: comma-split, each trimmed. -/
def keysOfCapture (cap : List Char) : List String :=
  (splitOnComma cap).map (fun t => String.mk (trimPy t))

/-- `extract_citation_keys` from the source: scan every document, update the
accumulated key set with the keys of every match. -/
def extract_citation_keys (texts : List String) : Finset String :=
  texts.foldl (fun acc t =>
    (findCites t.data).foldl (fun a m => a ∪ (keysOfCapture m).toFinset) acc) ∅

/-- Spec-side description of the extracted keys (claim C3): the union over all
matches of all whitespace-trimmed comma-separated tokens inside the braces. -/
def citationKeysSpec (texts : List String) : Finset String :=
  (texts.flatMap (fun t => (findCites t.data).flatMap keysOfCapture)).toFinset

/-- Characters the lazy `.*?` of the title tokenizer may consume: anything but a
closing brace (where the lazy match stops) or a newline (not matched by `.`). -/
def bodyPred (c : Char) : Bool :=
  !(c == '}' || c == '\n')

/-- First alternative of the title tokenizer regex, `\\[a-zA-Z]+\{.*?\}`. -/
def matchCmdTok : List Char → Option (List Char × List Char)
  | '\\' :: cs =>
    let letters := cs.takeWhile pyIsAlpha
    if letters.isEmpty then none
    else
      match cs.dropWhile pyIsAlpha with
      | '{' :: r2 =>
        let body := r2.takeWhile bodyPred
        match r2.dropWhile bodyPred with
        | '}' :: r3 => some ('\\' :: (letters ++ '{' :: (body ++ ['}'])), r3)
        | _ => none
      | _ => none
  | _ => none

/-- Second alternative of the title tokenizer regex, `{.*?}`. -/
def matchBraceTok : List Char → Option (List Char × List Char)
  | '{' :: r2 =>
    let body := r2.takeWhile bodyPred
    match r2.dropWhile bodyPred with
    | '}' :: r3 => some ('{' :: (body ++ ['}']), r3)
    | _ => none
  | _ => none

/-- Third alternative of the title tokenizer regex, `[^\s]+`. -/
def matchWordTok (cs : List Char) : Option (List Char × List Char) :=
  let w := cs.takeWhile (fun c => !pyWs c)
  if w.isEmpty then none else some (w, cs.dropWhile (fun c => !pyWs c))

/-- The tokenizer pattern `(\\[a-zA-Z]+\{.*?\}|{.*?}|[^\s]+)`: alternatives tried
in order at one position. -/
def tryTok (cs : List Char) : Option (List Char × List Char) :=
  match matchCmdTok cs with
  | some r => some r
  | none =>
    match matchBraceTok cs with
    | some r => some r
    | none => matchWordTok cs

/-- `re.findall` scan for the tokenizer pattern. -/
def tokenizeF : Nat → List Char → List (List Char)
  | 0, _ => []
  | _ + 1, [] => []
  | fuel + 1, c :: cs =>
    match tryTok (c :: cs) with
    | some (t, rest) => t :: tokenizeF fuel rest
    | none => tokenizeF fuel cs

/-- The token list of a title string. -/
def tokenize (cs : List Char) : List (List Char) :=
  tokenizeF cs.length cs

/-- `token.startswith('\\') or (token.startswith('{') and token.endswith('}'))`. -/
def isOpaqueTok (t : List Char) : Bool :=
  (match t with | '\\' :: _ => true | _ => false)
  || ((match t with | '{' :: _ => true | _ => false) && t.getLast? == some '}')

/-- The `small_words` set of `title_case` in `process_bib.py`, in source order. -/
def smallWordsCode : List String :=
  ["a", "an", "the", "and", "but", "or", "for", "nor",
   "on", "at", "to", "from", "by", "of", "in", "out", "over",
   "with", "is", "ok", "as", "if", "be", "into", "than", "that"]

/-- Per-token transformation of `title_case` for a non-opaque token at index `i`
of `n` tokens. -/
def transformWord (i n : Nat) (w : List Char) : List Char :=
  if isUpperWord w then w
  else if i == 0 || i == n - 1 then capitalizePy w
  else if pyLowerStr (String.mk w) ∈ smallWordsCode then lowerWord w
  else capitalizePy w

/-- `title_case` from `process_bib.py`: tokenize, keep LaTeX commands/brace groups
and all-caps words, capitalize first/last, lowercase interior small words,
capitalize the rest, and rejoin with single spaces. -/
def title_case (title : String) : String :=
  let tokens := tokenize title.data
  let n := tokens.length
  String.mk (joinSp (tokens.enum.map (fun p =>
    if isOpaqueTok p.2 then p.2 else transformWord p.1 n p.2)))

/-- The short-function-word set enumerated by the specification (claim C4). -/
def smallWordsClaim : List String :=
  ["a", "an", "the", "and", "but", "or", "for", "nor", "on", "at", "to", "from",
   "by", "of", "in", "out", "over", "with", "is", "as", "if", "be", "into",
   "than", "that"]

/-- Title casing as the specification words it: opaque tokens and all-uppercase
words unchanged, first and last token capitalized, interior words of the given
short-word set lowercased, every other interior word capitalized, tokens
rejoined with single spaces. -/
def titleCaseSpec (small : List String) (title : String) : String :=
  let tokens := tokenize title.data
  String.mk (joinSp (tokens.mapIdx (fun i w =>
    if isOpaqueTok w || isUpperWord w then w
    else if i = 0 ∨ i = tokens.length - 1 then capitalizePy w
    else if pyLowerStr (String.mk w) ∈ small then lowerWord w
    else capitalizePy w)))

/-- A missing-field report record: `{'ID': …, 'ENTRYTYPE': …, 'missing_fields': …}`. -/
structure ReportItem where
  ID : String
  ENTRYTYPE : String
  missing_fields : List String
deriving DecidableEq

/-- The placeholder-adding loop of `check_required_fields`: walk the required
list, add an empty-string value for each name not already a key, and collect
the added names in order. -/
def addMissingLoop : Entry → List String → Entry × List String
  | e, [] => (e, [])
  | e, f :: fs =>
    if hasKey e f then addMissingLoop e fs
    else
      let r := addMissingLoop { e with fields := e.fields ++ [(f, "")] } fs
      (r.1, f :: r.2)

/-- `check_required_fields` from `process_bib.py` (permissive policy): add
placeholders for missing required fields and append one report item when at
least one field was missing. -/
def check_required_fields (e : Entry) (required : List String)
    (report : List ReportItem) : Entry × List ReportItem :=
  let r := addMissingLoop e required
  (r.1, if r.2.isEmpty then report else report ++ [⟨e.ID, e.ENTRYTYPE, r.2⟩])

/-- `check_required_fields` from `main.py` (strict policy): first remove every
field not in the required list (keeping `ID`/`ENTRYTYPE`), then proceed as the
permissive version. -/
def check_required_fields_strict (e : Entry) (required : List String)
    (report : List ReportItem) : Entry × List ReportItem :=
  check_required_fields
    { e with fields := e.fields.filter (fun p => required.contains p.1) } required report

/-- `conference_format_mapping` from `main.py`. -/
def conference_format_mapping : List (String × List (String × List String)) :=
  [("CVPR",
     [("article", ["author", "title", "journal", "year"]),
      ("inproceedings", ["author", "title", "booktitle", "year"]),
      ("book", ["author", "title", "publisher", "year"]),
      ("misc", ["author", "title", "year", "howpublished"]),
      ("arxiv", ["author", "title", "journal", "year"])]),
   ("CHI",
     [("article", ["author", "title", "journal", "volume", "number", "year", "address", "publisher"]),
      ("inproceedings", ["author", "title", "booktitle", "year", "address", "publisher", "pages"]),
      ("book", ["author", "title", "year", "address", "publisher"]),
      ("misc", ["author", "title", "howpublished", "year"]),
      ("arxiv", ["author", "title", "journal", "year"])])]

/-- `dict.get` on a venue profile. -/
def mappingGet (m : List (String × List String)) (k : String) : Option (List String) :=
  match m.find? (fun p => p.1 == k) with
  | some p => some p.2
  | none => none

/-- Python substring containment `needle in hay` on character lists. -/
def containsSub (needle : List Char) : List Char → Bool
  | [] => needle.isEmpty
  | c :: cs => needle.isPrefixOf (c :: cs) || containsSub needle cs

/-- All values stored in the entry's dictionary, over which `determine_arxiv`
iterates (`for field in entry`): the `ID` and `ENTRYTYPE` values as well as the
ordinary field values. -/
def entryValues (e : Entry) : List String :=
  e.ID :: e.ENTRYTYPE :: e.fields.map Prod.snd

/-- `determine_arxiv` from `main.py`: some stored value contains the substring
`"arxiv"` after lowercasing. -/
def determine_arxiv (e : Entry) : Bool :=
  (entryValues e).any (fun v => containsSub "arxiv".data (lowerWord v.data))

/-- The required-field selection of `main.py`'s validation loop: a `misc` entry
detected as arxiv uses `mapping.get('arxiv', [])`, every other entry uses
`mapping.get(entry_type, [])`. -/
def requiredFieldsFor (profile : List (String × List String)) (e : Entry) : List String :=
  let t := pyLowerStr e.ENTRYTYPE
  if t == "misc" && determine_arxiv e then (mappingGet profile "arxiv").getD []
  else (mappingGet profile t).getD []

/-- Code-point lexicographic order on character lists: Python string `<=`. -/
def lexLe : List Char → List Char → Bool
  | [], _ => true
  | _ :: _, [] => false
  | c :: cs, d :: ds =>
    if c.toNat < d.toNat then true
    else if d.toNat < c.toNat then false
    else lexLe cs ds

/-- Python string comparison. -/
def strLe (a b : String) : Bool :=
  lexLe a.data b.data

/-- `entry.get('ENTRYTYPE', …).lower()` (the attribute is always present). -/
def entryTypeOf (e : Entry) : String :=
  pyLowerStr e.ENTRYTYPE

/-- `entry.get('title', '').lower()`, the within-group sort key. -/
def lowerTitle (e : Entry) : String :=
  pyLowerStr (getField e "title" "")

/-- Deduplication keeping the first occurrence of each element, in order:
the key order of a Python dict built by insertion. -/
def firstDedup : List String → List String
  | [] => []
  | x :: xs => x :: (firstDedup xs).filter (fun y => y != x)

/-- The fixed type-priority prefix of `sort_entries`. -/
def typeOrderList : List String :=
  ["inproceedings", "article", "proceedings", "book", "misc"]

/-- Stable insertion of `a` into `l`: `a` is placed before the first element it
compares `le` to, hence after all elements equal to it that are already there. -/
def oInsert {α : Type} (le : α → α → Bool) (a : α) : List α → List α
  | [] => [a]
  | b :: l => if le a b then a :: b :: l else b :: oInsert le a l

/-- Stable insertion sort, the model of Python's stable `list.sort`/`sorted`. -/
def iSort {α : Type} (le : α → α → Bool) : List α → List α
  | [] => []
  | a :: l => oInsert le a (iSort le l)

/-- Within-group comparison of `sort_entries`: lowercased title. -/
def byTitle (a b : Entry) : Bool :=
  strLe (lowerTitle a) (lowerTitle b)

/-- `sort_entries` from `process_bib.py`: group by lowercased entry type, order
the groups by the fixed priority list followed by the remaining present types
sorted lexicographically, sort each group stably by lowercased title, and
concatenate. -/
def sort_entries (es : List Entry) : List Entry :=
  let present := firstDedup (es.map entryTypeOf)
  let remaining := iSort strLe (present.filter (fun t => !typeOrderList.contains t))
  ((typeOrderList ++ remaining).map (fun t =>
    iSort byTitle (es.filter (fun e => entryTypeOf e == t)))).flatten

/-- Position of a type in the fixed priority list. -/
def typePos (t : String) : Option Nat :=
  typeOrderList.findIdx? (fun s => s == t)

/-- The claim's strict order on distinct entry types: fixed priority list first,
then the remaining types lexicographically. -/
def typeBefore (s t : String) : Prop :=
  match typePos s, typePos t with
  | some i, some j => i < j
  | some _, none => True
  | none, some _ => False
  | none, none => strLe s t = true ∧ s ≠ t

/-- The claim's overall order on sorted output: same type and nondecreasing
lowercased title, or strictly earlier type. -/
def sortKeyLe (a b : Entry) : Prop :=
  (entryTypeOf a = entryTypeOf b ∧ strLe (lowerTitle a) (lowerTitle b) = true)
  ∨ typeBefore (entryTypeOf a) (entryTypeOf b)

/-- The venue string considered by the consistency detector: `booktitle` if
present, else `journal` if present, else none. -/
def venueOf (e : Entry) : Option String :=
  if hasField e "booktitle" then some (getField e "booktitle" "")
  else if hasField e "journal" then some (getField e "journal" "")
  else none

/-- Venue normalization: lowercase, strip, remove periods and commas. -/
def normalizeVenue (s : String) : String :=
  String.mk ((trimPy (lowerWord s.data)).filter (fun c => !(c == '.' || c == ',')))

/-- The set of original venue spellings normalizing to `k`. -/
def venueGroup (es : List Entry) (k : String) : Finset String :=
  ((es.filterMap venueOf).filter (fun v => normalizeVenue v == k)).toFinset

/-- `detect_booktitle_discrepancies` from the source: group original venue
strings by normalized form and output every group with more than one distinct
original spelling, in first-occurrence order of the normalized key. -/
def detect_booktitle_discrepancies (es : List Entry) : List (Finset String) :=
  let vs := es.filterMap venueOf
  ((firstDedup (vs.map normalizeVenue)).filter
    (fun k => 1 < (venueGroup es k).card)).map (venueGroup es)

/-- One attempt of the separator regex `\s+and\s+` at the head of the list:
on success returns the input after the separator. -/
def matchAndSep (cs : List Char) : Option (List Char) :=
  if (cs.takeWhile pyWs).isEmpty then none
  else
    match cs.dropWhile pyWs with
    | 'a' :: 'n' :: 'd' :: r2 =>
      if (r2.takeWhile pyWs).isEmpty then none else some (r2.dropWhile pyWs)
    | _ => none

/-- `re.split(r'\s+and\s+', …)`: segments between non-overlapping leftmost
matches of the separator. -/
def splitAndF : Nat → List Char → List (List Char)
  | 0, cs => [cs]
  | _ + 1, [] => [[]]
  | fuel + 1, c :: cs =>
    match matchAndSep (c :: cs) with
    | some rest => [] :: splitAndF fuel rest
    | none =>
      match splitAndF fuel cs with
      | s :: ss => (c :: s) :: ss
      | [] => [[c]]

/-- The author-field segments, as `re.split(r'\s+and\s+', author_field)`. -/
def splitAnd (s : String) : List (List Char) :=
  splitAndF s.data.length s.data

/-- Python `str.split()` with no argument: maximal non-whitespace runs. -/
def wsSplitF : Nat → List Char → List (List Char)
  | 0, _ => []
  | _ + 1, [] => []
  | fuel + 1, c :: cs =>
    if pyWs c then wsSplitF fuel cs
    else (c :: cs.takeWhile (fun d => !pyWs d)) :: wsSplitF fuel (cs.dropWhile (fun d => !pyWs d))

/-- Python `str.split()` with no argument. -/
def wsSplit (cs : List Char) : List (List Char) :=
  wsSplitF cs.length cs

/-- `f"{last}, {first}"` when given names are present, else just the surname. -/
def assembleName (last firstNames : List Char) : List Char :=
  if firstNames.isEmpty then last else last ++ ',' :: ' ' :: firstNames

/-- The per-author body of `standardize_authors`; `none` models the uncaught
`IndexError` raised by `names[0]` on an empty name list. -/
def processAuthor (seg : List Char) : Option (List Char) :=
  let a := trimPy seg
  if a.contains ',' then
    let lastName := trimPy (a.takeWhile (fun c => c != ','))
    let firstNames := trimPy ((a.dropWhile (fun c => c != ',')).tail)
    some (assembleName (capitalizePy lastName)
      (joinSp ((wsSplit firstNames).map capitalizePy)))
  else
    match wsSplit a with
    | [] => none
    | [n] => some (assembleName (capitalizePy n) [])
    | n :: rest =>
      let names := n :: rest
      let firstNames0 := joinSp names.dropLast
      let lastName := names.getLast (List.cons_ne_nil n rest)
      some (assembleName (capitalizePy lastName)
        (joinSp ((wsSplit firstNames0).map capitalizePy)))

/-- Option-valued map aborting at the first failure: the Python loop raising at
the first bad author. -/
def mapOption (f : List Char → Option (List Char)) : List (List Char) → Option (List (List Char))
  | [] => some []
  | x :: xs =>
    match f x with
    | none => none
    | some y =>
      match mapOption f xs with
      | none => none
      | some ys => some (y :: ys)

/-- `standardize_authors` from the source; `none` models an uncaught exception. -/
def standardize_authors (author : String) : Option String :=
  match mapOption processAuthor (splitAnd author) with
  | some parts => some (String.mk (joinAnd parts))
  | none => none

/-- A well-behaved token for the idempotence analysis: non-empty, without
whitespace, backslashes or opening braces. -/
def goodTok (w : List Char) : Prop :=
  w ≠ [] ∧ ∀ c ∈ w, pyWs c = false ∧ c ≠ '\\' ∧ c ≠ '{'

/-! ### Character-level lemmas -/

/-- Every character is a lowercase ASCII letter, an uppercase ASCII letter, or
fixed by both case maps. -/
theorem pyCase_trichotomy (c : Char) :
    (c ∈ ['a','b','c','d','e','f','g','h','i','j','k','l','m','n','o','p','q','r','s','t','u','v','w','x','y','z']) ∨
    (c ∈ ['A','B','C','D','E','F','G','H','I','J','K','L','M','N','O','P','Q','R','S','T','U','V','W','X','Y','Z']) ∨
    (pyUpper c = c ∧ pyLower c = c) := by
  by_cases h1 : c ∈ ['a','b','c','d','e','f','g','h','i','j','k','l','m','n','o','p','q','r','s','t','u','v','w','x','y','z']
  · exact Or.inl h1
  by_cases h2 : c ∈ ['A','B','C','D','E','F','G','H','I','J','K','L','M','N','O','P','Q','R','S','T','U','V','W','X','Y','Z']
  · exact Or.inr (Or.inl h2)
  refine Or.inr (Or.inr ⟨?_, ?_⟩)
  · simp only [List.mem_cons, not_or] at h1
    obtain ⟨n1,n2,n3,n4,n5,n6,n7,n8,n9,n10,n11,n12,n13,n14,n15,n16,n17,n18,n19,n20,n21,n22,n23,n24,n25,n26,-⟩ := h1
    unfold pyUpper
    split <;> first | rfl | (exfalso; exact absurd rfl (by assumption))
  · simp only [List.mem_cons, not_or] at h2
    obtain ⟨n1,n2,n3,n4,n5,n6,n7,n8,n9,n10,n11,n12,n13,n14,n15,n16,n17,n18,n19,n20,n21,n22,n23,n24,n25,n26,-⟩ := h2
    unfold pyLower
    split <;> first | rfl | (exfalso; exact absurd rfl (by assumption))

theorem pyLower_pyLower (c : Char) : pyLower (pyLower c) = pyLower c := by
  rcases pyCase_trichotomy c with h | h | h
  · fin_cases h <;> rfl
  · fin_cases h <;> rfl
  · rw [h.2, h.2]

theorem pyLower_pyUpper (c : Char) : pyLower (pyUpper c) = pyLower c := by
  rcases pyCase_trichotomy c with h | h | h
  · fin_cases h <;> rfl
  · fin_cases h <;> rfl
  · rw [h.1]

theorem pyUpper_pyUpper (c : Char) : pyUpper (pyUpper c) = pyUpper c := by
  rcases pyCase_trichotomy c with h | h | h
  · fin_cases h <;> rfl
  · fin_cases h <;> rfl
  · rw [h.1, h.1]

theorem pyWs_pyUpper (c : Char) : pyWs (pyUpper c) = pyWs c := by
  rcases pyCase_trichotomy c with h | h | h
  · fin_cases h <;> rfl
  · fin_cases h <;> rfl
  · rw [h.1]

theorem pyWs_pyLower (c : Char) : pyWs (pyLower c) = pyWs c := by
  rcases pyCase_trichotomy c with h | h | h
  · fin_cases h <;> rfl
  · fin_cases h <;> rfl
  · rw [h.2]

theorem pyUpper_ne_backslash (c : Char) (h : c ≠ '\\') : pyUpper c ≠ '\\' := by
  rcases pyCase_trichotomy c with hc | hc | hc
  · fin_cases hc <;> decide
  · fin_cases hc <;> decide
  · rwa [hc.1]

theorem pyLower_ne_backslash (c : Char) (h : c ≠ '\\') : pyLower c ≠ '\\' := by
  rcases pyCase_trichotomy c with hc | hc | hc
  · fin_cases hc <;> decide
  · fin_cases hc <;> decide
  · rwa [hc.2]

theorem pyUpper_ne_lbrace (c : Char) (h : c ≠ '{') : pyUpper c ≠ '{' := by
  rcases pyCase_trichotomy c with hc | hc | hc
  · fin_cases hc <;> decide
  · fin_cases hc <;> decide
  · rwa [hc.1]

theorem pyLower_ne_lbrace (c : Char) (h : c ≠ '{') : pyLower c ≠ '{' := by
  rcases pyCase_trichotomy c with hc | hc | hc
  · fin_cases hc <;> decide
  · fin_cases hc <;> decide
  · rwa [hc.2]

/-! ### C1: partitioning used/unused entries -/

/-- C1: `separate_entries` partitions its input: the used output is exactly the
sublist of entries whose `ID` is in the citation-key set, the unused output
exactly the rest, their concatenation is a permutation of the input, and an
entry lies in the used (resp. unused) output iff it is an input entry whose
key is (resp. is not) in the set. -/
theorem separate_entries_partition (es : List Entry) (keys : Finset String) :
    (separate_entries es keys).1 = es.filter (fun e => e.ID ∈ keys)
    ∧ (separate_entries es keys).2 = es.filter (fun e => e.ID ∉ keys)
    ∧ ((separate_entries es keys).1 ++ (separate_entries es keys).2).Perm es
    ∧ ∀ e : Entry,
        (e ∈ (separate_entries es keys).1 ↔ e ∈ es ∧ e.ID ∈ keys)
        ∧ (e ∈ (separate_entries es keys).2 ↔ e ∈ es ∧ e.ID ∉ keys) := by
  have h1 : ∀ es : List Entry, (separate_entries es keys).1 = es.filter (fun e => e.ID ∈ keys) := by
    intro es
    induction es with
    | nil => rfl
    | cons e es ih =>
      simp only [separate_entries, List.filter_cons]
      by_cases h : e.ID ∈ keys <;> simp [h, ih]
  have h2 : ∀ es : List Entry, (separate_entries es keys).2 = es.filter (fun e => e.ID ∉ keys) := by
    intro es
    induction es with
    | nil => rfl
    | cons e es ih =>
      simp only [separate_entries, List.filter_cons]
      by_cases h : e.ID ∈ keys <;> simp [h, ih]
  refine ⟨h1 es, h2 es, ?_, ?_⟩
  · rw [h1 es, h2 es]
    have := List.filter_append_perm (fun e : Entry => e.ID ∈ keys) es
    refine List.Perm.trans (List.Perm.append_left _ ?_) this
    apply List.Perm.of_eq
    apply List.filter_congr
    intro x _
    simp
  · intro e
    rw [h1 es, h2 es]
    constructor <;> simp [List.mem_filter]

/-! ### C2: duplicate-key dropping in the record loader -/

theorem loadLoop_fst_filter (es : List Entry) (seen : List String) (k : String) :
    (loadLoop es seen).1.filter (fun e => e.ID == k)
      = (if k ∈ seen then [] else (es.filter (fun e => e.ID == k)).take 1) := by
  induction es generalizing seen with
  | nil => simp [loadLoop]
  | cons e es ih =>
    by_cases hmem : e.ID ∈ seen <;> by_cases hek : e.ID = k
    · subst hek
      simp [loadLoop, hmem, ih]
    · have hek2 : ¬ k = e.ID := fun h => hek h.symm
      simp [loadLoop, hmem, ih, List.filter_cons, hek]
    · subst hek
      simp [loadLoop, hmem, ih, List.filter_cons]
    · have hek2 : ¬ k = e.ID := fun h => hek h.symm
      simp [loadLoop, hmem, ih, List.filter_cons, hek, List.mem_cons, hek2]

theorem loadLoop_snd_filter (es : List Entry) (seen : List String) (k : String) :
    (loadLoop es seen).2.filter (fun e => e.ID == k)
      = (if k ∈ seen then es.filter (fun e => e.ID == k)
         else (es.filter (fun e => e.ID == k)).drop 1) := by
  induction es generalizing seen with
  | nil => simp [loadLoop]
  | cons e es ih =>
    by_cases hmem : e.ID ∈ seen <;> by_cases hek : e.ID = k
    · subst hek
      simp [loadLoop, hmem, ih, List.filter_cons]
    · have hek2 : ¬ k = e.ID := fun h => hek h.symm
      simp [loadLoop, hmem, ih, List.filter_cons, hek]
    · subst hek
      simp [loadLoop, hmem, ih, List.filter_cons]
    · have hek2 : ¬ k = e.ID := fun h => hek h.symm
      simp [loadLoop, hmem, ih, List.filter_cons, hek, List.mem_cons, hek2]

theorem loadLoop_sublist (es : List Entry) (seen : List String) :
    (loadLoop es seen).1.Sublist es := by
  induction es generalizing seen with
  | nil => exact List.Sublist.refl _
  | cons e es ih =>
    by_cases hmem : e.ID ∈ seen
    · simp only [loadLoop, if_pos hmem]
      exact (ih seen).cons e
    · simp only [loadLoop, if_neg hmem]
      exact (ih (e.ID :: seen)).cons₂ e

theorem loadLoop_not_seen (es : List Entry) (seen : List String) :
    ∀ e ∈ (loadLoop es seen).1, e.ID ∉ seen := by
  induction es generalizing seen with
  | nil => simp [loadLoop]
  | cons e es ih =>
    by_cases hmem : e.ID ∈ seen
    · simp only [loadLoop, if_pos hmem]
      exact ih seen
    · simp only [loadLoop, if_neg hmem]
      intro x hx
      rcases List.mem_cons.mp hx with h | h
      · subst h; exact hmem
      · intro hc
        exact (ih (e.ID :: seen) x h) (List.mem_cons_of_mem _ hc)

theorem loadLoop_nodup (es : List Entry) (seen : List String) :
    ((loadLoop es seen).1.map Entry.ID).Nodup := by
  induction es generalizing seen with
  | nil => simp [loadLoop]
  | cons e es ih =>
    by_cases hmem : e.ID ∈ seen
    · simp only [loadLoop, if_pos hmem]
      exact ih seen
    · simp only [loadLoop, if_neg hmem]
      refine List.Nodup.cons ?_ (ih (e.ID :: seen))
      intro hmm
      simp only [List.mem_map] at hmm
      obtain ⟨x, hx, hxid⟩ := hmm
      exact (loadLoop_not_seen es (e.ID :: seen) x hx) (by rw [hxid]; exact List.mem_cons_self _ _)

/-- C2: the record loader keeps, for every key, exactly the first-seen entry of
that key (in file-traversal order), drops and reports every later entry with
the same key, returns kept entries in first-seen order (a sublist of the
traversal order), and the kept keys are pairwise distinct. -/
theorem read_bib_files_dedup (files : List (List Entry)) :
    (∀ k : String,
      (read_bib_files files).1.filter (fun e => e.ID == k)
        = (files.flatten.filter (fun e => e.ID == k)).take 1
      ∧ (read_bib_files files).2.filter (fun e => e.ID == k)
        = (files.flatten.filter (fun e => e.ID == k)).drop 1)
    ∧ (read_bib_files files).1.Sublist files.flatten
    ∧ ((read_bib_files files).1.map Entry.ID).Nodup := by
  refine ⟨fun k => ?_, loadLoop_sublist _ _, loadLoop_nodup _ _⟩
  have h1 := loadLoop_fst_filter files.flatten [] k
  have h2 := loadLoop_snd_filter files.flatten [] k
  rw [if_neg (List.not_mem_nil k)] at h1 h2
  exact ⟨h1, h2⟩

/-! ### C3: citation-key extraction -/

theorem foldl_union_keys (ms : List (List Char)) (acc : Finset String) :
    ms.foldl (fun a m => a ∪ (keysOfCapture m).toFinset) acc
      = acc ∪ (ms.flatMap keysOfCapture).toFinset := by
  induction ms generalizing acc with
  | nil => simp
  | cons m ms ih =>
    rw [List.foldl_cons, ih, List.flatMap_cons, List.toFinset_append, Finset.union_assoc]

theorem foldl_union_texts (texts : List String) (acc : Finset String) :
    texts.foldl (fun acc t =>
        (findCites t.data).foldl (fun a m => a ∪ (keysOfCapture m).toFinset) acc) acc
      = acc ∪ (texts.flatMap (fun t => (findCites t.data).flatMap keysOfCapture)).toFinset := by
  induction texts generalizing acc with
  | nil => simp
  | cons t ts ih =>
    rw [List.foldl_cons, ih, foldl_union_keys, List.flatMap_cons, List.toFinset_append,
      Finset.union_assoc]

/-- C3: the extracted citation-key set is exactly the union, over all matches of
the citation-marker pattern in all documents, of the whitespace-trimmed
comma-separated tokens inside the braces; a key is in the set iff some match of
some document contributes it (duplicates collapse since the result is a set).
The extractor is a total function, so no input makes it fail. -/
theorem extract_citation_keys_spec (texts : List String) :
    extract_citation_keys texts = citationKeysSpec texts
    ∧ ∀ k : String, k ∈ extract_citation_keys texts ↔
        ∃ t ∈ texts, ∃ cap ∈ findCites t.data, k ∈ keysOfCapture cap := by
  have h : extract_citation_keys texts = citationKeysSpec texts := by
    unfold extract_citation_keys citationKeysSpec
    rw [foldl_union_texts]
    simp
  refine ⟨h, fun k => ?_⟩
  rw [h]
  unfold citationKeysSpec
  simp only [List.mem_toFinset, List.mem_flatMap]

/-! ### C6: required-field validation -/

theorem hasKey_append_single (e : Entry) (f g : String) (hfg : f ≠ g) :
    hasKey { e with fields := e.fields ++ [(g, "")] } f = hasKey e f := by
  unfold hasKey
  simp only [List.any_append, List.any_cons, List.any_nil]
  have hgf : ((g : String) == f) = false := by
    simp only [beq_eq_false_iff_ne, ne_eq]
    exact fun h => hfg h.symm
  simp [hgf]

theorem addMissingLoop_spec (required : List String) (e : Entry)
    (hnd : required.Nodup) :
    (addMissingLoop e required).1.ID = e.ID
    ∧ (addMissingLoop e required).1.ENTRYTYPE = e.ENTRYTYPE
    ∧ (addMissingLoop e required).2 = required.filter (fun f => !(hasKey e f))
    ∧ (addMissingLoop e required).1.fields
        = e.fields ++ (required.filter (fun f => !(hasKey e f))).map (fun f => (f, "")) := by
  induction required generalizing e with
  | nil => simp [addMissingLoop]
  | cons f fs ih =>
    have hf : f ∉ fs := (List.nodup_cons.mp hnd).1
    have hnd2 : fs.Nodup := (List.nodup_cons.mp hnd).2
    by_cases hk : hasKey e f = true
    · have hl : addMissingLoop e (f :: fs) = addMissingLoop e fs := by
        simp [addMissingLoop, hk]
      obtain ⟨h1, h2, h3, h4⟩ := ih e hnd2
      rw [hl, List.filter_cons]
      simp [hk, h1, h2, h3, h4]
    · have hk2 : hasKey e f = false := by simpa using hk
      have hl : addMissingLoop e (f :: fs)
          = (let r := addMissingLoop { e with fields := e.fields ++ [(f, "")] } fs
             (r.1, f :: r.2)) := by
        simp [addMissingLoop, hk2]
      obtain ⟨h1, h2, h3, h4⟩ := ih { e with fields := e.fields ++ [(f, "")] } hnd2
      have hcongr : fs.filter (fun g => !(hasKey { e with fields := e.fields ++ [(f, "")] } g))
          = fs.filter (fun g => !(hasKey e g)) := by
        apply List.filter_congr
        intro g hg
        rw [hasKey_append_single e g f (fun h => hf (h ▸ hg))]
      rw [hl]
      refine ⟨h1, h2, ?_, ?_⟩
      · simp only [h3, hcongr, List.filter_cons, hk2]
        simp
      · simp only [h4, hcongr, List.filter_cons, hk2]
        simp

/-- C6: for a duplicate-free required-field list, validation adds an
empty-string value for exactly the required fields absent from the entry, in
required-list order; it appends exactly one report item (with the entry's key
and type) iff at least one field was missing; the permissive variant keeps the
existing fields, the strict variant first drops the non-required fields.  Both
are total functions. -/
theorem check_required_fields_spec (e : Entry) (required : List String)
    (report : List ReportItem) (hnd : required.Nodup) :
    ((check_required_fields e required report).1.ID = e.ID
    ∧ (check_required_fields e required report).1.ENTRYTYPE = e.ENTRYTYPE
    ∧ (check_required_fields e required report).1.fields
        = e.fields ++ (required.filter (fun f => !(hasKey e f))).map (fun f => (f, ""))
    ∧ (check_required_fields e required report).2
        = report ++ (if (required.filter (fun f => !(hasKey e f))).isEmpty then []
            else [⟨e.ID, e.ENTRYTYPE, required.filter (fun f => !(hasKey e f))⟩]))
    ∧ ((check_required_fields_strict e required report).1.fields
        = e.fields.filter (fun p => required.contains p.1)
            ++ (required.filter (fun f => !(hasKey e f))).map (fun f => (f, ""))
    ∧ (check_required_fields_strict e required report).2
        = report ++ (if (required.filter (fun f => !(hasKey e f))).isEmpty then []
            else [⟨e.ID, e.ENTRYTYPE, required.filter (fun f => !(hasKey e f))⟩])) := by
  have hkeep : ∀ f ∈ required,
      hasKey { e with fields := e.fields.filter (fun p => required.contains p.1) } f
        = hasKey e f := by
    intro f hf
    unfold hasKey
    have hany : (e.fields.filter (fun p => required.contains p.1)).any (fun p => p.1 == f)
        = e.fields.any (fun p => p.1 == f) := by
      rw [Bool.eq_iff_iff]
      simp only [List.any_filter, List.any_eq_true, Bool.and_eq_true, beq_iff_eq]
      constructor
      · rintro ⟨p, hp, -, hpf⟩
        exact ⟨p, hp, hpf⟩
      · rintro ⟨p, hp, hpf⟩
        refine ⟨p, hp, ?_, hpf⟩
        simp [hpf, hf]
    rw [hany]
  obtain ⟨h1, h2, h3, h4⟩ := addMissingLoop_spec required e hnd
  have e0 : Entry := { e with fields := e.fields.filter (fun p => required.contains p.1) }
  obtain ⟨g1, g2, g3, g4⟩ := addMissingLoop_spec required
    { e with fields := e.fields.filter (fun p => required.contains p.1) } hnd
  have hcongr : required.filter (fun f =>
        !(hasKey { e with fields := e.fields.filter (fun p => required.contains p.1) } f))
      = required.filter (fun f => !(hasKey e f)) := by
    apply List.filter_congr
    intro g hg
    rw [hkeep g hg]
  constructor
  · refine ⟨?_, ?_, ?_, ?_⟩
    · simpa [check_required_fields] using h1
    · simpa [check_required_fields] using h2
    · simpa [check_required_fields] using h4
    · simp only [check_required_fields, h3, h1, h2]
      split <;> simp
  · constructor
    · simp only [check_required_fields_strict, check_required_fields, g4, hcongr]
    · simp only [check_required_fields_strict, check_required_fields, g3, g1, g2, hcongr]
      split <;> simp

/-- Witness for C6, the specification's own example: an `article` entry with only
`author` and `title` against the profile `[author, title, journal, year]` gets
`journal` and `year` reported in profile order and filled with empty strings. -/
theorem check_required_fields_spec_witness :
    (["author", "title", "journal", "year"] : List String).Nodup
    ∧ (check_required_fields ⟨"k", "article", [("author", "A"), ("title", "T")]⟩
        ["author", "title", "journal", "year"] []).1.fields
        = [("author", "A"), ("title", "T"), ("journal", ""), ("year", "")]
    ∧ (check_required_fields ⟨"k", "article", [("author", "A"), ("title", "T")]⟩
        ["author", "title", "journal", "year"] []).2
        = [⟨"k", "article", ["journal", "year"]⟩] := by
  have h := check_required_fields_spec ⟨"k", "article", [("author", "A"), ("title", "T")]⟩
    ["author", "title", "journal", "year"] [] (by decide)
  refine ⟨by decide, ?_, ?_⟩
  · rw [h.1.2.2.1]
    decide
  · rw [h.1.2.2.2]
    decide

/-! ### C7: arxiv reclassification -/

/-- C7: for either built-in venue profile, a `misc`-typed entry one of whose
field values contains `"arxiv"` (case-insensitively) is validated against the
profile's arxiv-specific required-field list, which both profiles define. -/
theorem arxiv_required_fields (venue : String) (profile : List (String × List String))
    (e : Entry) (hprof : (venue, profile) ∈ conference_format_mapping)
    (htype : pyLowerStr e.ENTRYTYPE = "misc")
    (harx : ∃ p ∈ e.fields, containsSub "arxiv".data (lowerWord p.2.data) = true) :
    ∃ L, mappingGet profile "arxiv" = some L ∧ requiredFieldsFor profile e = L := by
  have hdet : determine_arxiv e = true := by
    obtain ⟨p, hp, hsub⟩ := harx
    unfold determine_arxiv entryValues
    simp only [List.any_cons, List.any_eq_true, Bool.or_eq_true, List.mem_map]
    right; right
    exact ⟨p.2, ⟨p, hp, rfl⟩, hsub⟩
  have hsel : requiredFieldsFor profile e = (mappingGet profile "arxiv").getD [] := by
    unfold requiredFieldsFor
    rw [htype]
    simp [hdet]
  simp only [conference_format_mapping, List.mem_cons, List.not_mem_nil, or_false] at hprof
  rcases hprof with hc | hc <;>
  · have hp : profile = _ := congrArg Prod.snd hc
    subst hp
    refine ⟨["author", "title", "journal", "year"], by decide, ?_⟩
    rw [hsel]
    decide

/-- Witness for C7, the specification's example: a `misc` entry with
`howpublished = "arXiv preprint"` under the `CHI` profile is validated against
the arxiv required-field list. -/
theorem arxiv_required_fields_witness :
    ("CHI", [("article", ["author", "title", "journal", "volume", "number", "year", "address", "publisher"]),
       ("inproceedings", ["author", "title", "booktitle", "year", "address", "publisher", "pages"]),
       ("book", ["author", "title", "year", "address", "publisher"]),
       ("misc", ["author", "title", "howpublished", "year"]),
       ("arxiv", ["author", "title", "journal", "year"])]) ∈ conference_format_mapping
    ∧ pyLowerStr (Entry.ENTRYTYPE ⟨"k", "misc", [("howpublished", "arXiv preprint")]⟩) = "misc"
    ∧ (∃ p ∈ (Entry.fields ⟨"k", "misc", [("howpublished", "arXiv preprint")]⟩),
        containsSub "arxiv".data (lowerWord p.2.data) = true)
    ∧ requiredFieldsFor [("article", ["author", "title", "journal", "volume", "number", "year", "address", "publisher"]),
       ("inproceedings", ["author", "title", "booktitle", "year", "address", "publisher", "pages"]),
       ("book", ["author", "title", "year", "address", "publisher"]),
       ("misc", ["author", "title", "howpublished", "year"]),
       ("arxiv", ["author", "title", "journal", "year"])] ⟨"k", "misc", [("howpublished", "arXiv preprint")]⟩
        = ["author", "title", "journal", "year"] := by
  obtain ⟨L, h1, h2⟩ := arxiv_required_fields "CHI" [("article", ["author", "title", "journal", "volume", "number", "year", "address", "publisher"]),
       ("inproceedings", ["author", "title", "booktitle", "year", "address", "publisher", "pages"]),
       ("book", ["author", "title", "year", "address", "publisher"]),
       ("misc", ["author", "title", "howpublished", "year"]),
       ("arxiv", ["author", "title", "journal", "year"])]
    ⟨"k", "misc", [("howpublished", "arXiv preprint")]⟩
    (by decide) (by decide)
    ⟨("howpublished", "arXiv preprint"), by decide, by decide⟩
  refine ⟨by decide, by decide,
    ⟨("howpublished", "arXiv preprint"), by decide, by decide⟩, ?_⟩
  rw [h2]
  exact (Option.some.inj (h1.symm.trans
    (show mappingGet [("article", ["author", "title", "journal", "volume", "number", "year", "address", "publisher"]),
       ("inproceedings", ["author", "title", "booktitle", "year", "address", "publisher", "pages"]),
       ("book", ["author", "title", "year", "address", "publisher"]),
       ("misc", ["author", "title", "howpublished", "year"]),
       ("arxiv", ["author", "title", "journal", "year"])] "arxiv" = some ["author", "title", "journal", "year"] by decide))).symm
    |>.symm

/-! ### C10: partiality of author normalization -/

theorem dropWhile_shape {α : Type} (p : α → Bool) (l : List α) :
    l.dropWhile p = [] ∨ ∃ c t, l.dropWhile p = c :: t ∧ p c = false := by
  induction l with
  | nil => exact Or.inl rfl
  | cons c cs ih =>
    by_cases hc : p c = true
    · rw [List.dropWhile_cons, if_pos hc]
      exact ih
    · right
      exact ⟨c, cs, by rw [List.dropWhile_cons, if_neg hc], by simpa using hc⟩

theorem trimPy_shape (cs : List Char) :
    trimPy cs = [] ∨ ∃ c t, trimPy cs = c :: t ∧ pyWs c = false := by
  unfold trimPy
  rcases dropWhile_shape pyWs cs with h | ⟨c, t, h, hc⟩
  · left
    rw [h]
    rfl
  · rw [h, List.reverse_cons, List.dropWhile_append]
    by_cases he : (t.reverse.dropWhile pyWs).isEmpty
    · rw [if_pos he]
      right
      refine ⟨c, [], ?_, hc⟩
      rw [List.dropWhile_cons, if_neg (by simp [hc])]
      rfl
    · rw [if_neg he]
      right
      refine ⟨c, (t.reverse.dropWhile pyWs).reverse, ?_, hc⟩
      rw [List.reverse_append]
      rfl

theorem wsSplit_ne_nil (c : Char) (cs : List Char) (h : pyWs c = false) :
    wsSplit (c :: cs) ≠ [] := by
  simp [wsSplit, wsSplitF, h]

theorem processAuthor_none_iff (seg : List Char) :
    processAuthor seg = none ↔ trimPy seg = [] := by
  constructor
  · intro h
    rcases trimPy_shape seg with ht | ⟨c, t, ht, hc⟩
    · exact ht
    · exfalso
      simp only [processAuthor] at h
      rw [ht] at h
      split at h
      · simp at h
      · split at h
        · next hnil => exact wsSplit_ne_nil c t hc hnil
        · next => simp at h
        · next => simp at h
  · intro h
    unfold processAuthor
    rw [h]
    rfl

theorem mapOption_none_iff (f : List Char → Option (List Char)) (l : List (List Char)) :
    mapOption f l = none ↔ ∃ x ∈ l, f x = none := by
  induction l with
  | nil => simp [mapOption]
  | cons x xs ih =>
    cases hfx : f x with
    | none => simp [mapOption, hfx]
    | some y =>
      cases hm : mapOption f xs with
      | none =>
        obtain ⟨z, hz, hfz⟩ := ih.mp hm
        simp only [mapOption, hfx, hm, true_iff]
        exact ⟨z, List.mem_cons_of_mem _ hz, hfz⟩
      | some ys =>
        simp only [mapOption, hfx, hm]
        constructor
        · intro hcontra
          exact absurd hcontra (by simp)
        · rintro ⟨z, hz, hfz⟩
          rcases List.mem_cons.mp hz with hzx | hz2
          · rw [hzx, hfx] at hfz
            exact absurd hfz (by simp)
          · have := ih.mpr ⟨z, hz2, hfz⟩
            rw [hm] at this
            exact absurd this (by simp)

/-- C10: `standardize_authors` is partial exactly on author strings one of whose
separator-split segments is empty after trimming (it raises `IndexError` at
`names[0]` there, modelled as `none`); it is total on all other author strings.
Both examples of the claim fail, and a well-formed author string succeeds. -/
theorem standardize_authors_partiality :
    (∀ author : String,
      standardize_authors author = none ↔ ∃ seg ∈ splitAnd author, trimPy seg = [])
    ∧ standardize_authors "" = none
    ∧ standardize_authors "Smith and " = none
    ∧ standardize_authors "John Smith" = some "Smith, John" := by
  refine ⟨fun author => ?_, by decide, by decide, by decide⟩
  have hiff : (mapOption processAuthor (splitAnd author) = none)
      ↔ ∃ seg ∈ splitAnd author, trimPy seg = [] := by
    rw [mapOption_none_iff]
    constructor
    · rintro ⟨z, hz, hfz⟩
      exact ⟨z, hz, (processAuthor_none_iff z).mp hfz⟩
    · rintro ⟨z, hz, ht⟩
      exact ⟨z, hz, (processAuthor_none_iff z).mpr ht⟩
  rw [← hiff]
  unfold standardize_authors
  cases hm : mapOption processAuthor (splitAnd author) <;> simp [hm]

/-! ### C9: venue-discrepancy detection -/

theorem mem_firstDedup (l : List String) (x : String) :
    x ∈ firstDedup l ↔ x ∈ l := by
  induction l with
  | nil => simp [firstDedup]
  | cons y ys ih =>
    by_cases hxy : x = y
    · subst hxy
      simp [firstDedup]
    · simp only [firstDedup, List.mem_cons, List.mem_filter, ih, bne_iff_ne, ne_eq,
        decide_eq_true_eq]
      constructor
      · rintro (h | ⟨h, -⟩)
        · exact Or.inl h
        · exact Or.inr h
      · rintro (h | h)
        · exact Or.inl h
        · exact Or.inr ⟨h, hxy⟩

/-- C9: the consistency detector outputs exactly the groups of original venue
strings (the entry's `booktitle` if present, else `journal` if present, else
skipped) that share a normalized form (lowercased, trimmed, periods and commas
removed) and contain at least two distinct originals; in particular the three
spellings of the specification's example form one group of three variants. -/
theorem detect_booktitle_discrepancies_spec :
    (∀ (es : List Entry) (G : Finset String),
      G ∈ detect_booktitle_discrepancies es ↔
        ∃ v ∈ es.filterMap venueOf, G = venueGroup es (normalizeVenue v) ∧ 1 < G.card)
    ∧ detect_booktitle_discrepancies
        [⟨"a", "inproceedings", [("booktitle", "CHI '24.")]⟩,
         ⟨"b", "inproceedings", [("booktitle", "chi '24")]⟩,
         ⟨"c", "article", [("journal", "CHI '24")]⟩]
      = [{"CHI '24.", "chi '24", "CHI '24"}] := by
  constructor
  · intro es G
    unfold detect_booktitle_discrepancies
    simp only [List.mem_map, List.mem_filter, mem_firstDedup, List.mem_map,
      decide_eq_true_eq]
    constructor
    · rintro ⟨k, ⟨⟨v, hv, hk⟩, hcard⟩, hG⟩
      subst hk
      exact ⟨v, hv, hG.symm, lt_of_lt_of_eq hcard (congrArg Finset.card hG)⟩
    · rintro ⟨v, hv, hG, hcard⟩
      exact ⟨normalizeVenue v, ⟨⟨v, hv, rfl⟩,
        lt_of_lt_of_eq hcard (congrArg Finset.card hG)⟩, hG.symm⟩
  · decide

/-! ### C8: sorting infrastructure -/

theorem lexLe_refl (a : List Char) : lexLe a a = true := by
  induction a with
  | nil => rfl
  | cons c cs ih =>
    simp only [lexLe, lt_irrefl, if_false]
    exact ih

theorem lexLe_total (a b : List Char) : lexLe a b = true ∨ lexLe b a = true := by
  induction a generalizing b with
  | nil => exact Or.inl rfl
  | cons c cs ih =>
    cases b with
    | nil => exact Or.inr rfl
    | cons d ds =>
      simp only [lexLe]
      rcases Nat.lt_trichotomy c.toNat d.toNat with h | h | h
      · left
        rw [if_pos h]
      · rw [if_neg (by omega), if_neg (by omega), if_neg (by omega), if_neg (by omega)]
        exact ih ds
      · right
        rw [if_pos h]

theorem lexLe_trans (a : List Char) : ∀ (b c : List Char),
    lexLe a b = true → lexLe b c = true → lexLe a c = true := by
  induction a with
  | nil => intro b c _ _; rfl
  | cons x xs ih =>
    intro b c hab hbc
    cases b with
    | nil => simp [lexLe] at hab
    | cons y ys =>
      cases c with
      | nil => simp [lexLe] at hbc
      | cons z zs =>
        simp only [lexLe] at hab hbc ⊢
        split_ifs at hab hbc ⊢ <;>
          first
            | rfl
            | omega
            | exact ih ys zs hab hbc

theorem strLe_refl (a : String) : strLe a a = true :=
  lexLe_refl a.data

theorem strLe_total (a b : String) : strLe a b = true ∨ strLe b a = true :=
  lexLe_total a.data b.data

theorem strLe_trans (a b c : String) :
    strLe a b = true → strLe b c = true → strLe a c = true :=
  lexLe_trans a.data b.data c.data

theorem oInsert_perm {α : Type} (le : α → α → Bool) (a : α) (l : List α) :
    (oInsert le a l).Perm (a :: l) := by
  induction l with
  | nil => exact List.Perm.refl _
  | cons b l ih =>
    unfold oInsert
    by_cases h : le a b = true
    · rw [if_pos h]
    · rw [if_neg h]
      exact (ih.cons b).trans (List.Perm.swap a b l)

theorem iSort_perm {α : Type} (le : α → α → Bool) (l : List α) :
    (iSort le l).Perm l := by
  induction l with
  | nil => exact List.Perm.refl _
  | cons a l ih =>
    exact (oInsert_perm le a (iSort le l)).trans (ih.cons a)

theorem mem_oInsert {α : Type} (le : α → α → Bool) (a x : α) (l : List α) :
    x ∈ oInsert le a l ↔ x = a ∨ x ∈ l := by
  rw [(oInsert_perm le a l).mem_iff]
  simp

theorem mem_iSort {α : Type} (le : α → α → Bool) (x : α) (l : List α) :
    x ∈ iSort le l ↔ x ∈ l :=
  (iSort_perm le l).mem_iff

theorem oInsert_pairwise {α : Type} (le : α → α → Bool)
    (htot : ∀ a b, le a b = true ∨ le b a = true)
    (htr : ∀ a b c, le a b = true → le b c = true → le a c = true)
    (a : α) (l : List α) (hl : l.Pairwise (fun x y => le x y = true)) :
    (oInsert le a l).Pairwise (fun x y => le x y = true) := by
  induction l with
  | nil => simp [oInsert]
  | cons b l ih =>
    obtain ⟨hb, hl2⟩ := List.pairwise_cons.mp hl
    unfold oInsert
    by_cases h : le a b = true
    · rw [if_pos h]
      refine List.pairwise_cons.mpr ⟨?_, hl⟩
      intro x hx
      rcases List.mem_cons.mp hx with hxb | hxl
      · rw [hxb]; exact h
      · exact htr a b x h (hb x hxl)
    · rw [if_neg h]
      have hba : le b a = true := (htot a b).resolve_left h
      refine List.pairwise_cons.mpr ⟨?_, ih hl2⟩
      intro x hx
      rcases (mem_oInsert le a x l).mp hx with hxa | hxl
      · rw [hxa]; exact hba
      · exact hb x hxl

theorem iSort_pairwise {α : Type} (le : α → α → Bool)
    (htot : ∀ a b, le a b = true ∨ le b a = true)
    (htr : ∀ a b c, le a b = true → le b c = true → le a c = true)
    (l : List α) :
    (iSort le l).Pairwise (fun x y => le x y = true) := by
  induction l with
  | nil => simp [iSort]
  | cons a l ih =>
    exact oInsert_pairwise le htot htr a (iSort le l) ih

theorem filter_oInsert {α : Type} (le : α → α → Bool) (p : α → Bool) (a : α) (l : List α)
    (hcomp : ∀ b, p a = true → le a b = false → p b = false) :
    (oInsert le a l).filter p = if p a then a :: l.filter p else l.filter p := by
  induction l with
  | nil => simp [oInsert, List.filter_cons]
  | cons b l ih =>
    unfold oInsert
    by_cases h : le a b = true
    · rw [if_pos h]
      rw [List.filter_cons]
    · rw [if_neg h]
      rw [List.filter_cons, ih]
      by_cases hpa : p a = true
      · have hpb : p b = false := hcomp b hpa (by simpa using h)
        simp [hpa, hpb, List.filter_cons]
      · have hpa2 : p a = false := by simpa using hpa
        simp [hpa2, List.filter_cons]

theorem filter_iSort {α : Type} (le : α → α → Bool) (p : α → Bool) (l : List α)
    (hcomp : ∀ a b, p a = true → le a b = false → p b = false) :
    (iSort le l).filter p = l.filter p := by
  induction l with
  | nil => rfl
  | cons a l ih =>
    unfold iSort
    rw [filter_oInsert le p a (iSort le l) (hcomp a), ih, List.filter_cons]

theorem firstDedup_nodup (l : List String) : (firstDedup l).Nodup := by
  induction l with
  | nil => exact List.nodup_nil
  | cons x xs ih =>
    refine List.Nodup.cons ?_ (List.Nodup.filter _ ih)
    intro hmem
    have := (List.mem_filter.mp hmem).2
    simp at this

theorem mem_map_firstDedup (es : List Entry) (e : Entry) (he : e ∈ es) :
    entryTypeOf e ∈ firstDedup (es.map entryTypeOf) := by
  rw [mem_firstDedup]
  exact List.mem_map_of_mem entryTypeOf he

theorem mem_typeOrder_iff_contains (a : String) :
    typeOrderList.contains a = true ↔ a ∈ typeOrderList := by
  rw [List.contains_iff_exists_mem_beq]
  constructor
  · rintro ⟨b, hb, hab⟩
    exact (beq_iff_eq.mp hab) ▸ hb
  · intro h
    exact ⟨a, h, by simp⟩

theorem not_mem_typeOrder_of_bnot (a : String) (h : (!typeOrderList.contains a) = true) :
    a ∉ typeOrderList := by
  intro hmem
  rw [(mem_typeOrder_iff_contains a).mpr hmem] at h
  simp at h

theorem bnot_of_not_mem_typeOrder (a : String) (h : a ∉ typeOrderList) :
    (!typeOrderList.contains a) = true := by
  by_cases hc : typeOrderList.contains a = true
  · exact absurd ((mem_typeOrder_iff_contains a).mp hc) h
  · simp only [Bool.not_eq_true] at hc
    rw [hc]
    rfl

instance (s t : String) : Decidable (typeBefore s t) := by
  unfold typeBefore
  cases typePos s <;> cases typePos t <;> infer_instance

theorem typePos_eq_none_iff (t : String) : typePos t = none ↔ t ∉ typeOrderList := by
  unfold typePos
  rw [List.findIdx?_eq_none_iff]
  constructor
  · intro h hmem
    have := h t hmem
    simp at this
  · intro h x hx
    simp only [beq_eq_false_iff_ne, ne_eq]
    intro hxt
    exact h (hxt ▸ hx)

theorem typePos_of_mem (t : String) (h : t ∈ typeOrderList) : ∃ i, typePos t = some i := by
  fin_cases h <;> exact ⟨_, rfl⟩

theorem typeBefore_of_fixed_not (a b : String) (ha : a ∈ typeOrderList)
    (hb : b ∉ typeOrderList) : typeBefore a b := by
  obtain ⟨i, hi⟩ := typePos_of_mem a ha
  have hbn : typePos b = none := (typePos_eq_none_iff b).mpr hb
  unfold typeBefore
  rw [hi, hbn]
  exact trivial

theorem typeBefore_of_none (a b : String) (ha : typePos a = none) (hb : typePos b = none)
    (hle : strLe a b = true) (hne : a ≠ b) : typeBefore a b := by
  unfold typeBefore
  rw [ha, hb]
  exact ⟨hle, hne⟩

theorem byTitle_total (a b : Entry) : byTitle a b = true ∨ byTitle b a = true :=
  strLe_total (lowerTitle a) (lowerTitle b)

theorem byTitle_trans (a b c : Entry) :
    byTitle a b = true → byTitle b c = true → byTitle a c = true :=
  strLe_trans (lowerTitle a) (lowerTitle b) (lowerTitle c)

theorem type_of_mem_group (es : List Entry) (t : String) (x : Entry)
    (hx : x ∈ iSort byTitle (es.filter (fun e => entryTypeOf e == t))) :
    entryTypeOf x = t := by
  rw [mem_iSort] at hx
  simpa using (List.mem_filter.mp hx).2

theorem groups_flatten_perm (ts : List String) : ∀ (es : List Entry), ts.Nodup →
    (∀ e ∈ es, entryTypeOf e ∈ ts) →
    ((ts.map (fun t => es.filter (fun e => entryTypeOf e == t))).flatten).Perm es := by
  induction ts with
  | nil =>
    intro es _ hcov
    have : es = [] := by
      cases es with
      | nil => rfl
      | cons e es2 => exact absurd (hcov e (List.mem_cons_self e es2)) (List.not_mem_nil _)
    subst this
    simp
  | cons t ts ih =>
    intro es hnd hcov
    have htn : t ∉ ts := (List.nodup_cons.mp hnd).1
    have hnd2 : ts.Nodup := (List.nodup_cons.mp hnd).2
    simp only [List.map_cons, List.flatten_cons]
    have hcongr : ∀ t' ∈ ts, es.filter (fun e => entryTypeOf e == t')
        = (es.filter (fun e => !(entryTypeOf e == t))).filter (fun e => entryTypeOf e == t') := by
      intro t' ht'
      rw [List.filter_filter]
      apply List.filter_congr
      intro e _
      by_cases he : entryTypeOf e = t'
      · have hne : ¬ t' = t := fun h => htn (h ▸ ht')
        simp [he, hne]
      · simp [he]
    have hmap : ts.map (fun t' => es.filter (fun e => entryTypeOf e == t'))
        = ts.map (fun t' => (es.filter (fun e => !(entryTypeOf e == t))).filter
            (fun e => entryTypeOf e == t')) :=
      List.map_congr_left hcongr
    rw [hmap]
    have hcov2 : ∀ e ∈ es.filter (fun e => !(entryTypeOf e == t)), entryTypeOf e ∈ ts := by
      intro e he
      obtain ⟨hee, hne⟩ := List.mem_filter.mp he
      rcases List.mem_cons.mp (hcov e hee) with h | h
      · simp [h] at hne
      · exact h
    have hperm := ih (es.filter (fun e => !(entryTypeOf e == t))) hnd2 hcov2
    exact (hperm.append_left _).trans (List.filter_append_perm _ es)

theorem flatten_iSort_perm (ts : List String) (es : List Entry) :
    ((ts.map (fun t => iSort byTitle (es.filter (fun e => entryTypeOf e == t)))).flatten).Perm
      ((ts.map (fun t => es.filter (fun e => entryTypeOf e == t))).flatten) := by
  induction ts with
  | nil => exact List.Perm.refl _
  | cons t ts ih =>
    simp only [List.map_cons, List.flatten_cons]
    exact (iSort_perm byTitle _).append ih

theorem pairwise_flatten_groups (es : List Entry) : ∀ (ts : List String),
    ts.Pairwise typeBefore →
    ((ts.map (fun t => iSort byTitle (es.filter (fun e => entryTypeOf e == t)))).flatten).Pairwise
      sortKeyLe := by
  intro ts
  induction ts with
  | nil => simp
  | cons t ts ih =>
    intro hp
    obtain ⟨hrel, hp2⟩ := List.pairwise_cons.mp hp
    simp only [List.map_cons, List.flatten_cons]
    rw [List.pairwise_append]
    refine ⟨?_, ih hp2, ?_⟩
    · have hsorted := iSort_pairwise byTitle byTitle_total byTitle_trans
        (es.filter (fun e => entryTypeOf e == t))
      refine hsorted.imp_of_mem ?_
      intro a b ha hb hr
      exact Or.inl ⟨(type_of_mem_group es t a ha).trans (type_of_mem_group es t b hb).symm, hr⟩
    · intro a ha b hb
      rw [List.mem_flatten] at hb
      obtain ⟨g, hg, hbg⟩ := hb
      rw [List.mem_map] at hg
      obtain ⟨t', ht', hgt⟩ := hg
      subst hgt
      refine Or.inr ?_
      rw [type_of_mem_group es t a ha, type_of_mem_group es t' b hbg]
      exact hrel t' ht'

theorem stability_sum (es : List Entry) (t ttl : String) : ∀ (ts : List String), ts.Nodup →
    (((ts.map (fun t' => iSort byTitle (es.filter (fun e => entryTypeOf e == t')))).flatten).filter
        (fun e => entryTypeOf e == t && lowerTitle e == ttl))
      = (if t ∈ ts then es.filter (fun e => entryTypeOf e == t && lowerTitle e == ttl)
         else []) := by
  have hcomp : ∀ a b : Entry, (entryTypeOf a == t && lowerTitle a == ttl) = true →
      byTitle a b = false → (entryTypeOf b == t && lowerTitle b == ttl) = false := by
    intro a b hpa hle
    by_contra hpb
    have hpb2 : (entryTypeOf b == t && lowerTitle b == ttl) = true := by
      simpa using hpb
    have h1 : lowerTitle a = ttl := by
      have := (Bool.and_eq_true .. ▸ hpa).2
      simpa using this
    have h2 : lowerTitle b = ttl := by
      have := (Bool.and_eq_true .. ▸ hpb2).2
      simpa using this
    have : byTitle a b = true := by
      unfold byTitle
      rw [h1, h2]
      exact strLe_refl ttl
    rw [this] at hle
    cases hle
  intro ts
  induction ts with
  | nil => simp
  | cons t' ts ih =>
    intro hnd
    obtain ⟨ht'n, hnd2⟩ := List.nodup_cons.mp hnd
    simp only [List.map_cons, List.flatten_cons, List.filter_append]
    rw [ih hnd2, filter_iSort byTitle _ _ hcomp, List.filter_filter]
    by_cases htt : t' = t
    · subst htt
      rw [if_pos (List.mem_cons_self _ _), if_neg ht'n, List.append_nil]
      apply List.filter_congr
      intro e _
      by_cases he : entryTypeOf e = t'
      · simp [he]
      · simp [he]
    · have hhead : es.filter (fun e =>
          (entryTypeOf e == t && lowerTitle e == ttl) && entryTypeOf e == t') = [] := by
        rw [List.filter_eq_nil_iff]
        intro e _
        simp only [Bool.and_eq_true, beq_iff_eq, not_and]
        rintro ⟨h1, -⟩ h2
        exact htt (h2.symm.trans h1)
      rw [hhead, List.nil_append]
      have hmm : (t ∈ t' :: ts) ↔ t ∈ ts := by
        constructor
        · intro h
          rcases List.mem_cons.mp h with h1 | h1
          · exact absurd h1.symm htt
          · exact h1
        · exact fun h => List.mem_cons_of_mem _ h
      by_cases hts : t ∈ ts
      · rw [if_pos hts, if_pos (hmm.mpr hts)]
      · rw [if_neg hts, if_neg (fun h => hts (hmm.mp h))]

/-- C8: `sort_entries` returns a permutation of its input, ordered by the fixed
type priority (inproceedings, article, proceedings, book, misc, then remaining
types lexicographically) and within a type by lowercased title (missing titles
as the empty string); entries agreeing on type and lowercased title keep their
original relative order. -/
theorem sort_entries_spec (es : List Entry) :
    (sort_entries es).Perm es
    ∧ (sort_entries es).Pairwise sortKeyLe
    ∧ ∀ t ttl : String,
        (sort_entries es).filter (fun e => entryTypeOf e == t && lowerTitle e == ttl)
          = es.filter (fun e => entryTypeOf e == t && lowerTitle e == ttl) := by
  have hse : sort_entries es
      = (((typeOrderList ++ iSort strLe ((firstDedup (es.map entryTypeOf)).filter
            (fun t => !typeOrderList.contains t))).map
          (fun t => iSort byTitle (es.filter (fun e => entryTypeOf e == t)))).flatten) := rfl
  have hnodup : (typeOrderList ++ iSort strLe ((firstDedup (es.map entryTypeOf)).filter
      (fun t => !typeOrderList.contains t))).Nodup := by
    rw [List.nodup_append]
    refine ⟨by decide, ?_, ?_⟩
    · exact ((firstDedup_nodup (es.map entryTypeOf)).filter _).perm
        (iSort_perm strLe _).symm
    · intro a ha hb
      rw [mem_iSort, List.mem_filter] at hb
      exact not_mem_typeOrder_of_bnot a hb.2 ha
  have hcov : ∀ e ∈ es, entryTypeOf e ∈ typeOrderList
      ++ iSort strLe ((firstDedup (es.map entryTypeOf)).filter
          (fun t => !typeOrderList.contains t)) := by
    intro e he
    rw [List.mem_append]
    by_cases hc : entryTypeOf e ∈ typeOrderList
    · exact Or.inl hc
    · right
      rw [mem_iSort, List.mem_filter]
      exact ⟨mem_map_firstDedup es e he, bnot_of_not_mem_typeOrder _ hc⟩
  have hptb : (typeOrderList ++ iSort strLe ((firstDedup (es.map entryTypeOf)).filter
      (fun t => !typeOrderList.contains t))).Pairwise typeBefore := by
    rw [List.pairwise_append]
    refine ⟨by decide, ?_, ?_⟩
    · have hsorted := iSort_pairwise strLe strLe_total strLe_trans
        ((firstDedup (es.map entryTypeOf)).filter (fun t => !typeOrderList.contains t))
      have hnd : (iSort strLe ((firstDedup (es.map entryTypeOf)).filter
          (fun t => !typeOrderList.contains t))).Nodup :=
        ((firstDedup_nodup (es.map entryTypeOf)).filter _).perm (iSort_perm strLe _).symm
      have hcomb := hsorted.and hnd
      refine hcomb.imp_of_mem ?_
      intro a b ha hb hr
      have hna : a ∉ typeOrderList := by
        rw [mem_iSort, List.mem_filter] at ha
        exact not_mem_typeOrder_of_bnot a ha.2
      have hnb : b ∉ typeOrderList := by
        rw [mem_iSort, List.mem_filter] at hb
        exact not_mem_typeOrder_of_bnot b hb.2
      exact typeBefore_of_none a b ((typePos_eq_none_iff a).mpr hna)
        ((typePos_eq_none_iff b).mpr hnb) hr.1 hr.2
    · intro a ha b hb
      refine typeBefore_of_fixed_not a b ha ?_
      rw [mem_iSort, List.mem_filter] at hb
      exact not_mem_typeOrder_of_bnot b hb.2
  refine ⟨?_, ?_, ?_⟩
  · rw [hse]
    exact (flatten_iSort_perm _ es).trans (groups_flatten_perm _ es hnodup hcov)
  · rw [hse]
    exact pairwise_flatten_groups es _ hptb
  · intro t ttl
    rw [hse, stability_sum es t ttl _ hnodup]
    by_cases hts : t ∈ typeOrderList ++ iSort strLe ((firstDedup (es.map entryTypeOf)).filter
        (fun t => !typeOrderList.contains t))
    · rw [if_pos hts]
    · rw [if_neg hts]
      symm
      rw [List.filter_eq_nil_iff]
      intro e he
      simp only [Bool.and_eq_true, beq_iff_eq, not_and]
      rintro h1 -
      exact hts (h1 ▸ hcov e he)

/-! ### C4: title-casing against the claim's word set -/

theorem smallWords_perm : smallWordsCode.Perm ("ok" :: smallWordsClaim) := by
  decide

theorem smallWords_mem_iff (s : String) :
    s ∈ smallWordsCode ↔ s ∈ ("ok" :: smallWordsClaim) :=
  smallWords_perm.mem_iff

/-- Counterexample for C4 as stated: the implementation's small-word set also
contains `"ok"`, which the claim's enumerated set lacks, so on the title
`"x ok y"` the code keeps `ok` lowercase while the claim demands `Ok`. -/
theorem title_case_claim_counterexample :
    title_case "x ok y" = "X ok Y"
    ∧ titleCaseSpec smallWordsClaim "x ok y" = "X Ok Y"
    ∧ title_case "x ok y" ≠ titleCaseSpec smallWordsClaim "x ok y" := by
  refine ⟨by decide, by decide, by decide⟩

/-- C4 (amended: the short-word set additionally contains `ok`): `title_case`
agrees with the specification-worded transformation on every title, once `"ok"`
is added to the claim's enumerated short-function-word set. -/
theorem title_case_spec_with_ok (title : String) :
    title_case title = titleCaseSpec ("ok" :: smallWordsClaim) title := by
  simp only [title_case, titleCaseSpec]
  rw [List.mapIdx_eq_enum_map]
  congr 1
  congr 1
  apply List.map_congr_left
  rintro ⟨i, w⟩ hp
  simp only [Function.uncurry]
  by_cases ho : isOpaqueTok w = true
  · simp [ho]
  · have ho2 : isOpaqueTok w = false := by simpa using ho
    by_cases hu : isUpperWord w = true
    · simp [ho2, hu, transformWord]
    · have hu2 : isUpperWord w = false := by simpa using hu
      by_cases hedge : i = 0 ∨ i = (tokenize title.data).length - 1
      · have hb : (i == 0 || i == (tokenize title.data).length - 1) = true := by
          rcases hedge with h | h <;> simp [h]
        simp [ho2, hu2, transformWord, hb, hedge]
      · have hb : (i == 0 || i == (tokenize title.data).length - 1) = false := by
          rw [not_or] at hedge
          simp [hedge.1, hedge.2]
        by_cases hsm : pyLowerStr (String.mk w) ∈ smallWordsCode
        · have hsm2 : pyLowerStr (String.mk w) ∈ ("ok" :: smallWordsClaim) :=
            (smallWords_mem_iff _).mp hsm
          simp [ho2, hu2, transformWord, hb, hedge, hsm, hsm2]
        · have hsm2 : pyLowerStr (String.mk w) ∉ ("ok" :: smallWordsClaim) :=
            fun h => hsm ((smallWords_mem_iff _).mpr h)
          simp [ho2, hu2, transformWord, hb, hedge, hsm, hsm2]

/-! ### C5: idempotence analysis of title casing -/

theorem takeWhile_pred {α : Type} (p : α → Bool) (l : List α) :
    ∀ x ∈ l.takeWhile p, p x = true := by
  induction l with
  | nil => simp
  | cons a l ih =>
    rw [List.takeWhile_cons]
    by_cases h : p a = true
    · rw [if_pos h]
      intro x hx
      rcases List.mem_cons.mp hx with hxa | hxl
      · rw [hxa]; exact h
      · exact ih x hxl
    · rw [if_neg h]
      simp

theorem takeWhile_all {α : Type} (p : α → Bool) (l : List α)
    (h : ∀ x ∈ l, p x = true) : l.takeWhile p = l := by
  induction l with
  | nil => rfl
  | cons a l ih =>
    rw [List.takeWhile_cons, if_pos (h a (List.mem_cons_self a l))]
    rw [ih (fun x hx => h x (List.mem_cons_of_mem a hx))]

theorem dropWhile_all {α : Type} (p : α → Bool) (l : List α)
    (h : ∀ x ∈ l, p x = true) : l.dropWhile p = [] := by
  induction l with
  | nil => rfl
  | cons a l ih =>
    rw [List.dropWhile_cons, if_pos (h a (List.mem_cons_self a l))]
    exact ih (fun x hx => h x (List.mem_cons_of_mem a hx))

theorem matchCmdTok_none (c : Char) (cs : List Char) (h : c ≠ '\\') :
    matchCmdTok (c :: cs) = none := by
  unfold matchCmdTok
  split
  · next cs2 heq =>
    exfalso
    injection heq with h1 h2
    exact h h1
  · rfl

theorem matchBraceTok_none (c : Char) (cs : List Char) (h : c ≠ '{') :
    matchBraceTok (c :: cs) = none := by
  unfold matchBraceTok
  split
  · next cs2 heq =>
    exfalso
    injection heq with h1 h2
    exact h h1
  · rfl

theorem tryTok_ws (c : Char) (cs : List Char) (hb : c ≠ '\\' ∧ c ≠ '{')
    (hws : pyWs c = true) : tryTok (c :: cs) = none := by
  unfold tryTok
  rw [matchCmdTok_none c cs hb.1, matchBraceTok_none c cs hb.2]
  have h1 : (c :: cs).takeWhile (fun d => !pyWs d) = [] := by
    rw [List.takeWhile_cons, if_neg (by rw [hws]; decide)]
  simp [matchWordTok, h1]

theorem tryTok_word (c : Char) (cs : List Char) (hb : c ≠ '\\' ∧ c ≠ '{')
    (hws : pyWs c = false) :
    tryTok (c :: cs) = some (c :: cs.takeWhile (fun d => !pyWs d),
      cs.dropWhile (fun d => !pyWs d)) := by
  unfold tryTok
  rw [matchCmdTok_none c cs hb.1, matchBraceTok_none c cs hb.2]
  have h1 : (c :: cs).takeWhile (fun d => !pyWs d) = c :: cs.takeWhile (fun d => !pyWs d) := by
    rw [List.takeWhile_cons, if_pos (by rw [hws]; decide)]
  have h2 : (c :: cs).dropWhile (fun d => !pyWs d) = cs.dropWhile (fun d => !pyWs d) := by
    rw [List.dropWhile_cons, if_pos (by rw [hws]; decide)]
  simp [matchWordTok, h1, h2]

theorem wsSplitF_congr (f1 : Nat) : ∀ (f2 : Nat) (cs : List Char),
    cs.length ≤ f1 → cs.length ≤ f2 → wsSplitF f1 cs = wsSplitF f2 cs := by
  induction f1 with
  | zero =>
    intro f2 cs h1 _
    have : cs = [] := List.eq_nil_of_length_eq_zero (Nat.le_zero.mp h1)
    subst this
    cases f2 <;> rfl
  | succ f ih =>
    intro f2 cs h1 h2
    cases cs with
    | nil => cases f2 <;> rfl
    | cons c cs2 =>
      cases f2 with
      | zero => simp at h2
      | succ f2b =>
        simp only [wsSplitF]
        by_cases hws : pyWs c = true
        · rw [if_pos hws, if_pos hws]
          exact ih f2b cs2 (by simpa using h1) (by simpa using h2)
        · rw [if_neg hws, if_neg hws]
          congr 1
          have hdl : (cs2.dropWhile (fun d => !pyWs d)).length ≤ cs2.length :=
            (List.dropWhile_sublist _).length_le
          exact ih f2b _ (by simp at h1; omega) (by simp at h2; omega)

theorem matchWordTok_rest (cs t rest : List Char)
    (h : matchWordTok cs = some (t, rest)) : rest.length < cs.length := by
  unfold matchWordTok at h
  by_cases he : (cs.takeWhile (fun c => !pyWs c)).isEmpty
  · rw [if_pos he] at h
    cases h
  · rw [if_neg he] at h
    injection h with h1
    injection h1 with h2 h3
    have hlen : (cs.takeWhile (fun c => !pyWs c)).length
        + (cs.dropWhile (fun c => !pyWs c)).length = cs.length := by
      conv_rhs => rw [← List.takeWhile_append_dropWhile (p := fun c => !pyWs c) (l := cs)]
      rw [List.length_append]
    have hne : (cs.takeWhile (fun c => !pyWs c)).length ≠ 0 := by
      intro hz
      rw [List.isEmpty_iff] at he
      exact he (List.eq_nil_of_length_eq_zero hz)
    rw [← h3]
    omega

theorem matchCmdTok_rest (cs t rest : List Char)
    (h : matchCmdTok cs = some (t, rest)) : rest.length < cs.length := by
  rcases cs with - | ⟨c, cs2⟩
  · simp [matchCmdTok] at h
  · by_cases hc : c = '\\'
    · subst hc
      simp only [matchCmdTok] at h
      split at h
      · cases h
      · split at h
        · rename_i r2 heq2
          split at h
          · rename_i r3 heq3
            injection h with h1
            injection h1 with h2 h3
            have e1 : (cs2.dropWhile pyIsAlpha).length ≤ cs2.length :=
              (List.dropWhile_sublist _).length_le
            have e2 : (cs2.dropWhile pyIsAlpha).length = r2.length + 1 := by
              rw [heq2]
              rfl
            have e3 : (r2.dropWhile bodyPred).length ≤ r2.length :=
              (List.dropWhile_sublist _).length_le
            have e4 : (r2.dropWhile bodyPred).length = r3.length + 1 := by
              rw [heq3]
              rfl
            rw [← h3]
            simp only [List.length_cons]
            omega
          · cases h
        · cases h
    · rw [matchCmdTok_none c cs2 hc] at h
      cases h

theorem matchBraceTok_rest (cs t rest : List Char)
    (h : matchBraceTok cs = some (t, rest)) : rest.length < cs.length := by
  rcases cs with - | ⟨c, r2⟩
  · simp [matchBraceTok] at h
  · by_cases hc : c = '{'
    · subst hc
      simp only [matchBraceTok] at h
      split at h
      · rename_i r3 heq3
        injection h with h1
        injection h1 with h2 h3
        have e3 : (r2.dropWhile bodyPred).length ≤ r2.length :=
          (List.dropWhile_sublist _).length_le
        have e4 : (r2.dropWhile bodyPred).length = r3.length + 1 := by
          rw [heq3]
          rfl
        rw [← h3]
        simp only [List.length_cons]
        omega
      · cases h
    · rw [matchBraceTok_none c r2 hc] at h
      cases h

theorem tryTok_rest (cs t rest : List Char)
    (h : tryTok cs = some (t, rest)) : rest.length < cs.length := by
  unfold tryTok at h
  split at h
  · next heq =>
    injection h with h1
    rw [h1] at heq
    exact matchCmdTok_rest cs t rest heq
  · next =>
    split at h
    · next heq =>
      injection h with h1
      rw [h1] at heq
      exact matchBraceTok_rest cs t rest heq
    · exact matchWordTok_rest cs t rest h

theorem tokenizeF_congr (f1 : Nat) : ∀ (f2 : Nat) (cs : List Char),
    cs.length ≤ f1 → cs.length ≤ f2 → tokenizeF f1 cs = tokenizeF f2 cs := by
  induction f1 with
  | zero =>
    intro f2 cs h1 _
    have : cs = [] := List.eq_nil_of_length_eq_zero (Nat.le_zero.mp h1)
    subst this
    cases f2 <;> rfl
  | succ f ih =>
    intro f2 cs h1 h2
    cases cs with
    | nil => cases f2 <;> rfl
    | cons c cs2 =>
      cases f2 with
      | zero => simp at h2
      | succ f2b =>
        simp only [tokenizeF]
        cases htry : tryTok (c :: cs2) with
        | none => exact ih f2b cs2 (by simpa using h1) (by simpa using h2)
        | some pr =>
          obtain ⟨t, rest⟩ := pr
          have hlt := tryTok_rest (c :: cs2) t rest htry
          exact congrArg (List.cons t) (ih f2b rest (by omega) (by omega))

theorem tokenizeF_eq_wsSplitF (fuel : Nat) : ∀ (cs : List Char),
    (∀ c ∈ cs, c ≠ '\\' ∧ c ≠ '{') → tokenizeF fuel cs = wsSplitF fuel cs := by
  induction fuel with
  | zero => intro cs _; rfl
  | succ f ih =>
    intro cs h
    cases cs with
    | nil => rfl
    | cons c cs2 =>
      have hc := h c (List.mem_cons_self c cs2)
      have htail : ∀ x ∈ cs2, x ≠ '\\' ∧ x ≠ '{' :=
        fun x hx => h x (List.mem_cons_of_mem c hx)
      by_cases hws : pyWs c = true
      · simp only [tokenizeF, wsSplitF, tryTok_ws c cs2 hc hws, if_pos hws]
        exact ih cs2 htail
      · have hws2 : pyWs c = false := by simpa using hws
        simp only [tokenizeF, wsSplitF, tryTok_word c cs2 hc hws2, if_neg hws]
        congr 1
        exact ih _ (fun x hx => htail x ((List.dropWhile_sublist _).subset hx))

theorem tokenize_eq_wsSplit (cs : List Char) (h : ∀ c ∈ cs, c ≠ '\\' ∧ c ≠ '{') :
    tokenize cs = wsSplit cs :=
  tokenizeF_eq_wsSplitF cs.length cs h

theorem wsSplitF_props (P : Char → Prop) (fuel : Nat) : ∀ (cs : List Char),
    (∀ c ∈ cs, P c) →
    ∀ t ∈ wsSplitF fuel cs, t ≠ [] ∧ ∀ c ∈ t, pyWs c = false ∧ P c := by
  induction fuel with
  | zero => intro cs _ t ht; cases ht
  | succ f ih =>
    intro cs h t ht
    cases cs with
    | nil => cases ht
    | cons c cs2 =>
      have htail : ∀ x ∈ cs2, P x := fun x hx => h x (List.mem_cons_of_mem c hx)
      by_cases hws : pyWs c = true
      · rw [show wsSplitF (f + 1) (c :: cs2) = wsSplitF f cs2 by
            simp only [wsSplitF, if_pos hws]] at ht
        exact ih cs2 htail t ht
      · have hws2 : pyWs c = false := by simpa using hws
        rw [show wsSplitF (f + 1) (c :: cs2)
            = (c :: cs2.takeWhile (fun d => !pyWs d))
              :: wsSplitF f (cs2.dropWhile (fun d => !pyWs d)) by
            simp only [wsSplitF, if_neg hws]] at ht
        rcases List.mem_cons.mp ht with h1 | h1
        · subst h1
          refine ⟨by simp, ?_⟩
          intro x hx
          rcases List.mem_cons.mp hx with h2 | h2
          · rw [h2]
            exact ⟨hws2, h c (List.mem_cons_self c cs2)⟩
          · have hx2 : x ∈ cs2 := (List.takeWhile_sublist _).subset h2
            have hp := takeWhile_pred (fun d => !pyWs d) cs2 x h2
            exact ⟨by simpa using hp, htail x hx2⟩
        · exact ih _ (fun x hx => htail x ((List.dropWhile_sublist _).subset hx)) t h1

theorem wsSplit_props (P : Char → Prop) (cs : List Char) (h : ∀ c ∈ cs, P c) :
    ∀ t ∈ wsSplit cs, t ≠ [] ∧ ∀ c ∈ t, pyWs c = false ∧ P c :=
  wsSplitF_props P cs.length cs h

theorem wsSplit_single (t : List Char) (hne : t ≠ [])
    (hnws : ∀ c ∈ t, pyWs c = false) : wsSplit t = [t] := by
  rcases t with - | ⟨c, t1⟩
  · exact absurd rfl hne
  · have hc : pyWs c = false := hnws c (List.mem_cons_self c t1)
    have ht1 : ∀ x ∈ t1, pyWs x = false := fun x hx => hnws x (List.mem_cons_of_mem c hx)
    unfold wsSplit
    rw [show (c :: t1).length = t1.length + 1 from rfl]
    simp only [wsSplitF]
    rw [takeWhile_all _ t1 (by intro x hx; simp [ht1 x hx])]
    rw [dropWhile_all _ t1 (by intro x hx; simp [ht1 x hx])]
    rw [if_neg (show ¬ pyWs c = true by simp [hc])]
    cases t1.length <;> rfl

theorem wsSplit_append_tok (t rest : List Char) (hne : t ≠ [])
    (hnws : ∀ c ∈ t, pyWs c = false) :
    wsSplit (t ++ ' ' :: rest) = t :: wsSplit rest := by
  rcases t with - | ⟨c, t1⟩
  · exact absurd rfl hne
  · have hc : pyWs c = false := hnws c (List.mem_cons_self c t1)
    have ht1 : ∀ x ∈ t1, pyWs x = false := fun x hx => hnws x (List.mem_cons_of_mem c hx)
    unfold wsSplit
    rw [show (c :: t1) ++ ' ' :: rest = c :: (t1 ++ ' ' :: rest) from rfl]
    rw [show (c :: (t1 ++ ' ' :: rest)).length = (t1 ++ ' ' :: rest).length + 1 from rfl]
    simp only [wsSplitF]
    have htk : (t1 ++ ' ' :: rest).takeWhile (fun d => !pyWs d) = t1 := by
      rw [List.takeWhile_append_of_pos (by intro x hx; simp [ht1 x hx])]
      rw [List.takeWhile_cons, if_neg (by decide)]
      rw [List.append_nil]
    have hdr : (t1 ++ ' ' :: rest).dropWhile (fun d => !pyWs d) = ' ' :: rest := by
      rw [List.dropWhile_append_of_pos (by intro x hx; simp [ht1 x hx])]
      rw [List.dropWhile_cons, if_neg (by decide)]
    rw [htk, hdr]
    rw [if_neg (show ¬ pyWs c = true by simp [hc])]
    congr 1
    have hlen : rest.length + 1 ≤ (t1 ++ ' ' :: rest).length := by
      simp
    rw [wsSplitF_congr _ (rest.length + 1) (' ' :: rest) (by simpa using hlen) (by simp)]
    simp only [wsSplitF, if_pos (show pyWs ' ' = true by decide)]

theorem wsSplit_joinSp (ts : List (List Char))
    (h : ∀ t ∈ ts, t ≠ [] ∧ ∀ c ∈ t, pyWs c = false) :
    wsSplit (joinSp ts) = ts := by
  induction ts with
  | nil => rfl
  | cons t ts ih =>
    cases ts with
    | nil =>
      have := h t (List.mem_cons_self t [])
      exact wsSplit_single t this.1 this.2
    | cons t2 ts2 =>
      have ht := h t (List.mem_cons_self t (t2 :: ts2))
      rw [show joinSp (t :: t2 :: ts2) = t ++ ' ' :: joinSp (t2 :: ts2) from rfl]
      rw [wsSplit_append_tok t _ ht.1 ht.2]
      rw [ih (fun x hx => h x (List.mem_cons_of_mem t hx))]

theorem capitalizePy_idem (w : List Char) :
    capitalizePy (capitalizePy w) = capitalizePy w := by
  rcases w with - | ⟨c, cs⟩
  · rfl
  · simp only [capitalizePy, pyUpper_pyUpper, List.map_map]
    congr 1
    apply List.map_congr_left
    intro x _
    exact pyLower_pyLower x

theorem lowerWord_idem (w : List Char) : lowerWord (lowerWord w) = lowerWord w := by
  simp only [lowerWord, List.map_map]
  apply List.map_congr_left
  intro x _
  exact pyLower_pyLower x

theorem lowerWord_capitalizePy (w : List Char) :
    lowerWord (capitalizePy w) = lowerWord w := by
  rcases w with - | ⟨c, cs⟩
  · rfl
  · simp only [capitalizePy, lowerWord, List.map_cons, List.map_map, pyLower_pyUpper]
    congr 1
    apply List.map_congr_left
    intro x _
    exact pyLower_pyLower x

theorem pyLowerStr_mk_capitalizePy (w : List Char) :
    pyLowerStr (String.mk (capitalizePy w)) = pyLowerStr (String.mk w) := by
  show String.mk (lowerWord (capitalizePy w)) = String.mk (lowerWord w)
  rw [lowerWord_capitalizePy]

theorem pyLowerStr_mk_lowerWord (w : List Char) :
    pyLowerStr (String.mk (lowerWord w)) = pyLowerStr (String.mk w) := by
  show String.mk (lowerWord (lowerWord w)) = String.mk (lowerWord w)
  rw [lowerWord_idem]

theorem capitalizePy_good (w : List Char) (h : goodTok w) : goodTok (capitalizePy w) := by
  obtain ⟨hne, hch⟩ := h
  rcases w with - | ⟨c, cs⟩
  · exact absurd rfl hne
  · refine ⟨by simp [capitalizePy], ?_⟩
    intro x hx
    simp only [capitalizePy, List.mem_cons, List.mem_map] at hx
    rcases hx with hx | ⟨y, hy, hxy⟩
    · obtain ⟨hw, hb, hl⟩ := hch c (List.mem_cons_self c cs)
      subst hx
      exact ⟨by rw [pyWs_pyUpper]; exact hw, pyUpper_ne_backslash c hb, pyUpper_ne_lbrace c hl⟩
    · obtain ⟨hw, hb, hl⟩ := hch y (List.mem_cons_of_mem c hy)
      subst hxy
      exact ⟨by rw [pyWs_pyLower]; exact hw, pyLower_ne_backslash y hb, pyLower_ne_lbrace y hl⟩

theorem lowerWord_good (w : List Char) (h : goodTok w) : goodTok (lowerWord w) := by
  obtain ⟨hne, hch⟩ := h
  refine ⟨by simpa [lowerWord] using hne, ?_⟩
  intro x hx
  simp only [lowerWord, List.mem_map] at hx
  obtain ⟨y, hy, hxy⟩ := hx
  obtain ⟨hw, hb, hl⟩ := hch y hy
  subst hxy
  exact ⟨by rw [pyWs_pyLower]; exact hw, pyLower_ne_backslash y hb, pyLower_ne_lbrace y hl⟩

theorem transformWord_good (i n : Nat) (w : List Char) (h : goodTok w) :
    goodTok (transformWord i n w) := by
  unfold transformWord
  split_ifs
  · exact h
  · exact capitalizePy_good w h
  · exact lowerWord_good w h
  · exact capitalizePy_good w h

theorem isOpaqueTok_false_of_good (w : List Char) (h : goodTok w) :
    isOpaqueTok w = false := by
  obtain ⟨hne, hch⟩ := h
  rcases w with - | ⟨c, t⟩
  · exact absurd rfl hne
  · have hc := hch c (List.mem_cons_self c t)
    unfold isOpaqueTok
    split
    · next heq =>
      exfalso
      injection heq with e1 _
      exact hc.2.1 e1
    · next =>
      simp only [Bool.false_or]
      split
      · next heq =>
        exfalso
        injection heq with e1 _
        exact hc.2.2 e1
      · next => rfl

theorem transformWord_idem (i n : Nat) (w : List Char) :
    transformWord i n (transformWord i n w) = transformWord i n w := by
  by_cases hu : isUpperWord w = true
  · simp [transformWord, hu]
  · have hu2 : isUpperWord w = false := by simpa using hu
    by_cases hedge : (i == 0 || i == n - 1) = true
    · simp only [transformWord, hu2, Bool.false_eq_true, if_false, hedge, if_true]
      by_cases hv : isUpperWord (capitalizePy w) = true
      · simp [transformWord, hv]
      · simp [transformWord, hv, hedge, capitalizePy_idem]
    · have hedge2 : (i == 0 || i == n - 1) = false := by simpa using hedge
      by_cases hsm : pyLowerStr (String.mk w) ∈ smallWordsCode
      · simp only [transformWord, hu2, Bool.false_eq_true, if_false, hedge2, if_pos hsm]
        by_cases hv : isUpperWord (lowerWord w) = true
        · simp [transformWord, hv]
        · simp [transformWord, hv, hedge2, pyLowerStr_mk_lowerWord, hsm, lowerWord_idem]
      · simp only [transformWord, hu2, Bool.false_eq_true, if_false, hedge2, if_neg hsm]
        by_cases hv : isUpperWord (capitalizePy w) = true
        · simp [transformWord, hv]
        · simp [transformWord, hv, hedge2, pyLowerStr_mk_capitalizePy, hsm, capitalizePy_idem]

theorem enumFrom_map_enumFrom {α β : Type} (f : Nat → α → β) (l : List α) : ∀ (k : Nat),
    ((l.enumFrom k).map (fun p => f p.1 p.2)).enumFrom k
      = (l.enumFrom k).map (fun p => (p.1, f p.1 p.2)) := by
  induction l with
  | nil => intro k; rfl
  | cons a l ih =>
    intro k
    simp only [List.enumFrom_cons, List.map_cons]
    rw [ih (k + 1)]

theorem snd_mem_of_mem_enumFrom {α : Type} {p : Nat × α} {l : List α} {k : Nat}
    (h : p ∈ l.enumFrom k) : p.2 ∈ l := by
  have h2 : p.2 ∈ (l.enumFrom k).map Prod.snd := List.mem_map_of_mem Prod.snd h
  rwa [List.enumFrom_map_snd] at h2

theorem mem_joinSp {c : Char} : ∀ {ts : List (List Char)},
    c ∈ joinSp ts → c = ' ' ∨ ∃ t ∈ ts, c ∈ t := by
  intro ts
  induction ts with
  | nil => intro h; cases h
  | cons t ts ih =>
    cases ts with
    | nil =>
      intro h
      exact Or.inr ⟨t, List.mem_cons_self t [], h⟩
    | cons t2 ts2 =>
      intro h
      rw [show joinSp (t :: t2 :: ts2) = t ++ ' ' :: joinSp (t2 :: ts2) from rfl] at h
      rcases List.mem_append.mp h with h1 | h1
      · exact Or.inr ⟨t, List.mem_cons_self t (t2 :: ts2), h1⟩
      · rcases List.mem_cons.mp h1 with h2 | h2
        · exact Or.inl h2
        · rcases ih h2 with h3 | ⟨u, hu, hcu⟩
          · exact Or.inl h3
          · exact Or.inr ⟨u, List.mem_cons_of_mem t hu, hcu⟩

/-- Counterexample for C5 as stated: `title_case` is not idempotent.  On
`"{a\nb}c"` the first pass yields `"{a B}c"`; in the second pass the brace
group, whose newline became a space, matches `{.*?}` and absorbs the earlier
word, splitting `c` off as a new capitalized token, giving `"{a B} C"`.  The
same happens for a backslash command split by a newline. -/
theorem title_case_not_idempotent :
    title_case (title_case "\x7ba\nb\x7dc") ≠ title_case "\x7ba\nb\x7dc"
    ∧ title_case (title_case "\\foo\x7ba\nb\x7dc") ≠ title_case "\\foo\x7ba\nb\x7dc" := by
  constructor <;> decide

/-- C5 (amended: restricted to titles containing no backslash and no opening
brace, the characters that begin the tokenizer's opaque-group patterns, whose
interaction with collapsed whitespace breaks idempotence): on such titles
`title_case` is idempotent. -/
theorem title_case_idempotent_of_no_markup (s : String)
    (h : ∀ c ∈ s.data, c ≠ '\\' ∧ c ≠ '{') :
    title_case (title_case s) = title_case s := by
  have htok : tokenize s.data = wsSplit s.data := tokenize_eq_wsSplit s.data h
  have hto : ∀ t ∈ wsSplit s.data, goodTok t := by
    intro t ht
    obtain ⟨hne, hch⟩ := wsSplit_props (fun c => c ≠ '\\' ∧ c ≠ '{') s.data h t ht
    exact ⟨hne, fun c hc => ⟨(hch c hc).1, (hch c hc).2.1, (hch c hc).2.2⟩⟩
  have h1 : title_case s
      = String.mk (joinSp (((wsSplit s.data).enumFrom 0).map
          (fun p => transformWord p.1 (wsSplit s.data).length p.2))) := by
    simp only [title_case, htok, List.enum]
    congr 1
    apply congrArg
    apply List.map_congr_left
    intro p hp
    rw [isOpaqueTok_false_of_good p.2 (hto p.2 (snd_mem_of_mem_enumFrom hp))]
    simp
  have hpartsgood : ∀ t ∈ ((wsSplit s.data).enumFrom 0).map
      (fun p => transformWord p.1 (wsSplit s.data).length p.2), goodTok t := by
    intro t ht
    simp only [List.mem_map] at ht
    obtain ⟨p, hp, hpt⟩ := ht
    rw [← hpt]
    exact transformWord_good p.1 _ p.2 (hto p.2 (snd_mem_of_mem_enumFrom hp))
  have hclean2 : ∀ c ∈ joinSp (((wsSplit s.data).enumFrom 0).map
      (fun p => transformWord p.1 (wsSplit s.data).length p.2)), c ≠ '\\' ∧ c ≠ '{' := by
    intro c hc
    rcases mem_joinSp hc with h2 | ⟨t, ht, hct⟩
    · subst h2
      exact ⟨by decide, by decide⟩
    · exact ⟨((hpartsgood t ht).2 c hct).2.1, ((hpartsgood t ht).2 c hct).2.2⟩
  have htok2 : tokenize (joinSp (((wsSplit s.data).enumFrom 0).map
      (fun p => transformWord p.1 (wsSplit s.data).length p.2)))
      = ((wsSplit s.data).enumFrom 0).map
          (fun p => transformWord p.1 (wsSplit s.data).length p.2) := by
    rw [tokenize_eq_wsSplit _ hclean2]
    exact wsSplit_joinSp _ (fun t ht =>
      ⟨(hpartsgood t ht).1, fun c hc => ((hpartsgood t ht).2 c hc).1⟩)
  have hlen2 : (((wsSplit s.data).enumFrom 0).map
      (fun p => transformWord p.1 (wsSplit s.data).length p.2)).length
      = (wsSplit s.data).length := by
    rw [List.length_map, List.enumFrom_length]
  rw [h1]
  simp only [title_case, List.enum]
  rw [htok2, hlen2]
  congr 1
  rw [enumFrom_map_enumFrom (fun i w => transformWord i (wsSplit s.data).length w)
    (wsSplit s.data) 0]
  rw [List.map_map]
  apply congrArg
  apply List.map_congr_left
  intro p hp
  have hgood := transformWord_good p.1 (wsSplit s.data).length p.2
    (hto p.2 (snd_mem_of_mem_enumFrom hp))
  simp only [Function.comp]
  rw [isOpaqueTok_false_of_good _ hgood]
  simp only [Bool.false_eq_true, if_false]
  exact transformWord_idem p.1 (wsSplit s.data).length p.2

/-- Witness for the amended C5 on a concrete markup-free title. -/
theorem title_case_idempotent_witness :
    (∀ c ∈ ("a tale OF two cities" : String).data, c ≠ '\\' ∧ c ≠ '{')
    ∧ title_case (title_case "a tale OF two cities") = title_case "a tale OF two cities" := by
  exact ⟨by decide, title_case_idempotent_of_no_markup "a tale OF two cities" (by decide)⟩

end BibRef
